import Mathlib

/-!
Verification of the work-item documentation pipeline
(src/documentation/ADO/generate_documentation.py and
src/documentation/ADO/ADO_Update.py).

Text is modelled as List Char (one entry per Unicode scalar value).
Python string helpers (str.strip, str.splitlines, str.split, re.sub with
the concrete patterns used by the code) are embedded as executable
functions over List Char, following the CPython semantics of each call
as used by the source.

Caveats of the embedding, stated once here:
- Python treats lone-surrogate code points as ordinary characters; Lean
  Char cannot represent them, so chr of a surrogate numeric entity is
  represented by the Char.ofNat fallback character.  No theorem below
  depends on a surrogate input.
- The regex class \d is modelled as the ASCII digits; exotic Unicode
  decimal digits do not occur in any input considered below.
-/

/-- Code points for which the Python predicate str.isspace holds (also the
set matched by the regex class for whitespace). -/
def pySpaceCodes : List Nat :=
  [9, 10, 11, 12, 13, 28, 29, 30, 31, 32, 0x85, 0xa0, 0x1680,
   0x2000, 0x2001, 0x2002, 0x2003, 0x2004, 0x2005, 0x2006, 0x2007,
   0x2008, 0x2009, 0x200a, 0x2028, 0x2029, 0x202f, 0x205f, 0x3000]

/-- Whitespace in the sense of Python str.strip. -/
def isPySpace (c : Char) : Bool := pySpaceCodes.contains c.toNat

/-- Line-boundary code points of Python str.splitlines (the two-character
boundary CR LF is handled separately by normCRLF). -/
def lineBreakCodes : List Nat := [10, 11, 12, 13, 28, 29, 30, 0x85, 0x2028, 0x2029]

/-- Line-boundary character in the sense of Python str.splitlines. -/
def isLB (c : Char) : Bool := lineBreakCodes.contains c.toNat

/-- Python str.strip with no argument: drop leading and trailing whitespace. -/
def pyStrip (l : List Char) : List Char :=
  ((l.dropWhile isPySpace).reverse.dropWhile isPySpace).reverse

/-- Python str.join: concatenate the members with the separator between
consecutive members. -/
def joinSep (sep : List Char) : List (List Char) → List Char
  | [] => []
  | l :: ls =>
    match ls with
    | [] => l
    | _ :: _ => l ++ sep ++ joinSep sep ls

/-- Replace each two-character boundary CR LF by a single LF, so that
splitting on single-character boundaries afterwards agrees with Python
str.splitlines. -/
def normCRLF : List Char → List Char
  | [] => []
  | '\r' :: '\n' :: rest => '\n' :: normCRLF rest
  | c :: rest => c :: normCRLF rest

/-- Worker for pySplitlines: cur holds the current line reversed; a
boundary at the very end of the input does not open a new empty line. -/
def slGo (cur : List Char) : List Char → List (List Char)
  | [] => [cur.reverse]
  | c :: rest =>
    if isLB c then
      cur.reverse :: (match rest with | [] => [] | _ :: _ => slGo [] rest)
    else
      slGo (c :: cur) rest

/-- Python str.splitlines with no argument. -/
def pySplitlines (l : List Char) : List (List Char) :=
  match l with
  | [] => []
  | _ :: _ => slGo [] (normCRLF l)

/-- Python str.split on the two-character separator of two LF characters,
scanning left to right, non-overlapping, as in text.split applied to a
blank line separator. -/
def splitNN : List Char → List (List Char)
  | '\n' :: '\n' :: rest => [] :: splitNN rest
  | c :: rest =>
    match splitNN rest with
    | [] => [[c]]
    | hd :: tl => (c :: hd) :: tl
  | [] => [[]]

/-- Python str.startswith: the first argument is the candidate prefix. -/
def startsWithL : List Char → List Char → Bool
  | [], _ => true
  | _ :: _, [] => false
  | p :: ps, c :: cs => p == c && startsWithL ps cs

/-!
The tag stripper of clean_html: re.sub of the pattern "angle bracket,
one or more characters other than the closing bracket, closing bracket"
with the empty replacement.  A match begins at an opening angle bracket,
consumes at least one character that is not a closing bracket, and ends
at the next closing bracket; unmatched opening brackets and the
zero-content pair pass through verbatim, exactly as the Python regex
engine resumes scanning after a failed match position.
-/

/-- State machine for the tag-removal regex.  pending holds, reversed, the
characters from the most recent unresolved opening bracket onwards. -/
def stGo (pending : List Char) : List Char → List Char
  | [] => pending.reverse
  | c :: rest =>
    if c = '>' then
      match pending with
      | [] => '>' :: stGo [] rest
      | ['<'] => '<' :: '>' :: stGo [] rest
      | _ => stGo [] rest
    else if c = '<' then
      match pending with
      | [] => stGo ['<'] rest
      | _ => stGo (c :: pending) rest
    else
      match pending with
      | [] => c :: stGo [] rest
      | _ => stGo (c :: pending) rest

/-- Removal of tag-like sequences, first step of clean_html. -/
def stripTags (l : List Char) : List Char := stGo [] l

/-- Python str.replace of the named entity for a non-breaking space. -/
def replNbsp : List Char → List Char
  | '&' :: 'n' :: 'b' :: 's' :: 'p' :: ';' :: rest => ' ' :: replNbsp rest
  | c :: rest => c :: replNbsp rest
  | [] => []

/-- Python str.replace of the named entity for an ampersand. -/
def replAmp : List Char → List Char
  | '&' :: 'a' :: 'm' :: 'p' :: ';' :: rest => '&' :: replAmp rest
  | c :: rest => c :: replAmp rest
  | [] => []

/-- Python str.replace of the named entity for an opening angle bracket. -/
def replLt : List Char → List Char
  | '&' :: 'l' :: 't' :: ';' :: rest => '<' :: replLt rest
  | c :: rest => c :: replLt rest
  | [] => []

/-- Python str.replace of the named entity for a closing angle bracket. -/
def replGt : List Char → List Char
  | '&' :: 'g' :: 't' :: ';' :: rest => '>' :: replGt rest
  | c :: rest => c :: replGt rest
  | [] => []

/-- Python str.replace of the named entity for a double quote. -/
def replQuot : List Char → List Char
  | '&' :: 'q' :: 'u' :: 'o' :: 't' :: ';' :: rest => '"' :: replQuot rest
  | c :: rest => c :: replQuot rest
  | [] => []

/-- Python str.replace of the numeric entity 39 for an apostrophe, the
last entry of the entity table. -/
def replApos : List Char → List Char
  | '&' :: '#' :: '3' :: '9' :: ';' :: rest => '\'' :: replApos rest
  | c :: rest => c :: replApos rest
  | [] => []

/-- Apply the six named-entity replacements of clean_html in the order of
its entity table. -/
def replEntities (l : List Char) : List Char :=
  replApos (replQuot (replGt (replLt (replAmp (replNbsp l)))))

/-- Decimal value of a list of ASCII digits, as Python int applied to the
matched digit group. -/
def digitsVal (ds : List Char) : Nat :=
  ds.foldl (fun a c => a * 10 + (c.toNat - 48)) 0

/-- Scanner state for the numeric-entity substitution: nothing pending, a
pending ampersand, or a pending ampersand-hash with the digits seen so far
in reverse. -/
inductive NEState where
  | s0 : NEState
  | s1 : NEState
  | s2 : List Char → NEState

/-- Worker for the numeric-entity substitution of clean_html: re.sub of
the pattern ampersand, hash, one or more digits, semicolon, replaced by
chr of the decimal value.  Python chr raises ValueError above the maximal
code point 0x10FFFF; that exception is modelled as none. -/
def neGo : NEState → List Char → Option (List Char)
  | .s0, [] => some []
  | .s1, [] => some ['&']
  | .s2 ds, [] => some ('&' :: '#' :: ds.reverse)
  | .s0, c :: rest =>
    if c = '&' then neGo .s1 rest
    else (neGo .s0 rest).map (c :: ·)
  | .s1, c :: rest =>
    if c = '#' then neGo (.s2 []) rest
    else if c = '&' then (neGo .s1 rest).map ('&' :: ·)
    else (neGo .s0 rest).map (fun t => '&' :: c :: t)
  | .s2 ds, c :: rest =>
    if c.isDigit then neGo (.s2 (c :: ds)) rest
    else if c = ';' ∧ ds ≠ [] then
      let n := digitsVal ds.reverse
      if n ≤ 1114111 then (neGo .s0 rest).map (Char.ofNat n :: ·)
      else none
    else if c = '&' then (neGo .s1 rest).map (fun t => ('&' :: '#' :: ds.reverse) ++ t)
    else (neGo .s0 rest).map (fun t => ('&' :: '#' :: ds.reverse) ++ c :: t)

/-- Numeric-entity substitution step of clean_html. -/
def subNumEntities (l : List Char) : Option (List Char) := neGo .s0 l

/-- One paragraph of the whitespace normalization of clean_html: strip
each line, drop empty lines, join the survivors with single spaces; an
empty result drops the paragraph. -/
def cleanPara (para : List Char) : Option (List Char) :=
  let lines := ((pySplitlines para).map pyStrip).filter (fun x => decide (x ≠ []))
  if lines = [] then none else some (joinSep [' '] lines)

/-- Whitespace normalization of clean_html: split on blank lines, clean
each paragraph, join the surviving paragraphs with blank lines. -/
def normalizeWs (l : List Char) : List Char :=
  joinSep ['\n', '\n'] ((splitNN l).filterMap cleanPara)

/-- The function clean_html of generate_documentation.py.  The value none
models a raised ValueError from chr on an out-of-range numeric entity. -/
def clean_html (l : List Char) : Option (List Char) :=
  if l = [] then some [] else
  (subNumEntities (replEntities (stripTags l))).map normalizeWs

/-- Length of the leading run of hash characters. -/
def hashRun : List Char → Nat
  | '#' :: rest => hashRun rest + 1
  | _ => 0

/-- Whether re.match of the pattern one-to-six hashes followed by
whitespace succeeds on the line.  With a run of seven or more hashes every
shorter attempt is followed by another hash, so the match fails. -/
def isHeading (l : List Char) : Bool :=
  let m := hashRun l
  decide (1 ≤ m) && decide (m ≤ 6) &&
    (match l.drop m with
     | c :: _ => isPySpace c
     | [] => false)

/-- The line with the heading-marker match removed: the hash run and the
following maximal whitespace run, as re.sub with an anchored pattern. -/
def headingText (l : List Char) : List Char :=
  (l.drop (hashRun l)).dropWhile isPySpace

/-- The per-line branch chain of clean_markdown_headers, applied to an
already stripped non-empty line.  The horizontal-rule, bullet, and
regular-text branches all append the line unchanged. -/
def cmhLine (line : List Char) : List Char :=
  if isHeading line then
    "**Section: ".data ++ headingText line ++ "**".data
  else if line = "---".data then line
  else if startsWithL "- ".data line then line
  else line

/-- The function clean_markdown_headers of generate_documentation.py. -/
def clean_markdown_headers (text : List Char) : List Char :=
  if text = [] then [] else
  joinSep ['\n']
    ((pySplitlines text).filterMap fun l =>
      let s := pyStrip l
      if s = [] then none else some (cmhLine s))

/-- The per-paragraph body of the loop in format_section_content. -/
def fscPara (indent : List Char) (para : List Char) : List (List Char) :=
  let p := pyStrip para
  if p = [] then []
  else if startsWithL "- ".data p || startsWithL "* ".data p then
    (pySplitlines p).map (fun line => indent ++ line) ++ [[]]
  else
    ((pySplitlines p).filterMap fun l =>
      let s := pyStrip l
      if s = [] then none else some (indent ++ "> ".data ++ s)) ++ [[]]

/-- The function format_section_content of generate_documentation.py. -/
def format_section_content (content : List Char) (indent : List Char) : List (List Char) :=
  if content = [] then [] else
  ((splitNN (clean_markdown_headers content)).map (fscPara indent)).flatten

/-- The WorkItem dataclass.  Python child lists alias the item objects of
the input dictionary, so a child is represented here by its identifier and
resolved in the arena (the list of all items) when needed. -/
structure WorkItem where
  id : Nat
  type : List Char
  title : List Char
  description : List Char
  acceptance_criteria : List Char
  parent_id : Option Nat
  children : List Nat
deriving DecidableEq, Repr

/-- Truthiness of the optional parent identifier, as the Python condition
on the parent field: absent and zero are both falsy. -/
def hasParent (x : WorkItem) : Bool :=
  match x.parent_id with
  | some p => p != 0
  | none => false

/-- The parent identifier when present (only inspected under hasParent). -/
def pidOf (x : WorkItem) : Nat := x.parent_id.getD 0

/-- Dictionary lookup items.get, with the well-formedness convention that
the dictionary key of an item equals its id field. -/
def findItem (items : List WorkItem) (i : Nat) : Option WorkItem :=
  items.find? (fun y => y.id == i)

/-- Mutation of the single item with the given id: append one child
identifier to its child list. -/
def appendChild (arena : List WorkItem) (pid cid : Nat) : List WorkItem :=
  arena.map fun y => if y.id = pid then { y with children := y.children ++ [cid] } else y

/-- The loop body of the first pass of build_hierarchy, acting on the
state of mutated mapping and root list.  Parent lookup is performed in the
input mapping, whose key set the loop never changes. -/
def pass1Step (items : List WorkItem) (st : List WorkItem × List Nat) (x : WorkItem) :
    List WorkItem × List Nat :=
  if hasParent x then
    if (findItem items (pidOf x)).isSome then (appendChild st.1 (pidOf x) x.id, st.2)
    else st
  else (st.1, st.2 ++ [x.id])

/-- First pass of build_hierarchy: iterate the items in dictionary order;
an item with a truthy parent reference that resolves in the mapping is
appended to the children of that parent, an item with a falsy parent
reference is appended to the root list, and an item with a truthy but
unresolved parent reference is not recorded anywhere. -/
def pass1 (items : List WorkItem) : List WorkItem × List Nat :=
  items.foldl (pass1Step items) (items, [])

/-- The root identifiers collected by the first pass, in mapping order:
the items whose parent reference is falsy. -/
def rootsIds (items : List WorkItem) : List Nat :=
  (items.filter (fun x => !hasParent x)).map (fun x => x.id)

/-- The identifiers appended by the first pass, while iterating over L, to
the children of the item with identifier pid: the members of L with a
truthy parent reference that resolves in the mapping and equals pid. -/
def addedAmong (items L : List WorkItem) (pid : Nat) : List Nat :=
  (L.filter (fun x => hasParent x && (findItem items (pidOf x)).isSome
    && pidOf x == pid)).map (fun x => x.id)

/-- The identifiers appended over the whole first pass to the children of
the item with identifier pid. -/
def addedTo (items : List WorkItem) (pid : Nat) : List Nat :=
  addedAmong items items pid

/-- The fixed type-priority table of build_hierarchy with default 99. -/
def typeOrder (t : List Char) : Nat :=
  if t = "Feature".data then 1
  else if t = "User Story".data then 2
  else if t = "Task".data then 3
  else 99

/-- Sort key of a child reference: type priority of the referenced item,
then its identifier.  A child reference always denotes an item of the
arena, since pass one appends only identifiers of mapping members. -/
def childKey (arena : List WorkItem) (cid : Nat) : Nat × Nat :=
  match findItem arena cid with
  | some c => (typeOrder c.type, c.id)
  | none => (99, cid)

/-- Lexicographic comparison of composite sort keys. -/
def keyLe (a b : Nat × Nat) : Prop := a.1 < b.1 ∨ (a.1 = b.1 ∧ a.2 ≤ b.2)

instance : DecidableRel keyLe := fun a b => by
  unfold keyLe
  infer_instance

/-- Strict lexicographic comparison of composite sort keys. -/
def keyLt (a b : Nat × Nat) : Prop := a.1 < b.1 ∨ (a.1 = b.1 ∧ a.2 < b.2)

/-- The function build_hierarchy of generate_documentation.py.  The result
is the mutated mapping together with the sorted root identifiers; Python
list.sort is a stable sort, and a stable sort by a fixed key is unique, so
insertion sort denotes it exactly. -/
def build_hierarchy (items : List WorkItem) : List WorkItem × List Nat :=
  let st := pass1 items
  let roots := List.insertionSort (· ≤ ·) st.2
  let arena := st.1.map fun y =>
    { y with children :=
        List.insertionSort (fun a b => keyLe (childKey st.1 a) (childKey st.1 b)) y.children }
  (arena, roots)

/-- Decimal rendering of an identifier, as Python str interpolation. -/
def natToChars (n : Nat) : List Char := (toString n).data

/-- The acceptance-criteria block of format_work_item: split the cleaned
criteria on blank lines; in each scenario strip the lines and drop the
empty ones; render the first line as a bullet and the rest with two extra
spaces of indentation. -/
def acBlocks (indent : List Char) (ac : List Char) : List (List Char) :=
  ((splitNN ac).map fun scenario =>
    match ((pySplitlines scenario).map pyStrip).filter (fun x => decide (x ≠ [])) with
    | [] => []
    | l0 :: rest =>
      (indent ++ "- ".data ++ l0) :: rest.map (fun l => indent ++ "  ".data ++ l)).flatten

mutual

/-- The function format_work_item of generate_documentation.py.  The fuel
argument bounds the recursion depth plus sibling count; the Python code
recurses without a bound and any terminating run is reproduced by a large
enough fuel.  A none result models a propagated exception from clean_html
or a child reference outside the arena, neither of which occurs for the
inputs considered below. -/
def format_work_item (arena : List WorkItem) : Nat → WorkItem → Nat → Option (List Char)
  | 0, _, _ => none
  | fuel + 1, item, level =>
    let indent := List.replicate (2 * level) ' '
    match clean_html item.description with
    | none => none
    | some desc =>
      match clean_html item.acceptance_criteria with
      | none => none
      | some ac =>
        match renderChildren arena fuel item.children (level + 1) with
        | none => none
        | some childMd =>
          let md :=
            [indent ++ List.replicate (level + 1) '#' ++ [' '] ++ item.title,
             indent ++ ['*'] ++ item.type ++ " #".data ++ natToChars item.id ++ ['*'],
             []]
            ++ (if desc = [] then [] else format_section_content desc indent)
            ++ (if ac = [] then [] else
                 (indent ++ "**Acceptance Criteria:**".data) :: (acBlocks indent ac ++ [[]]))
            ++ childMd
          some (joinSep ['\n'] md)

/-- Rendering of the child blocks of an item, in child-list order; each
child identifier is resolved in the arena, as the Python child list holds
the item objects themselves. -/
def renderChildren (arena : List WorkItem) : Nat → List Nat → Nat → Option (List (List Char))
  | _, [], _ => some []
  | 0, _ :: _, _ => none
  | fuel + 1, cid :: rest, level =>
    match findItem arena cid with
    | none => none
    | some c =>
      match format_work_item arena fuel c level, renderChildren arena fuel rest level with
      | some b, some bs => some (b :: bs)
      | _, _ => none

end

/-- A JSON scalar as it occurs in the tracked fields of a work item. -/
inductive JVal where
  | s : List Char → JVal
  | n : Int → JVal
deriving DecidableEq, Repr

/-- A stored work-item record: the identifier and the fields dictionary. -/
structure WIData where
  id : Nat
  fields : List (List Char × JVal)
deriving DecidableEq, Repr

/-- Python dict.get with default None on an association list. -/
def pyGet (fs : List (List Char × JVal)) (k : List Char) : Option JVal :=
  match fs.find? (fun kv => kv.1 == k) with
  | some kv => some kv.2
  | none => none

/-- The five tracked field names, in the dictionary order used by
get_important_fields of ADO_Update.py. -/
def importantKeys : List (List Char) :=
  ["System.Title".data, "System.Description".data,
   "Microsoft.VSTS.Common.AcceptanceCriteria".data,
   "System.State".data, "Microsoft.VSTS.Common.Priority".data]

/-- The function get_important_fields of ADO_Update.py: the dictionary of
the five tracked fields, each looked up with default None. -/
def get_important_fields (d : WIData) : List (List Char × Option JVal) :=
  importantKeys.map (fun k => (k, pyGet d.fields k))

/-- Python dict.get with default None over the tracked-field dictionary,
whose values are themselves optional. -/
def pyGetOpt (fs : List (List Char × Option JVal)) (k : List Char) : Option JVal :=
  match fs.find? (fun kv => kv.1 == k) with
  | some kv => kv.2
  | none => none

/-- The field-comparison loop of detect_changes: keep the entries of the
current tracked dictionary whose value differs from the snapshot value. -/
def fieldChanges (cf sf : List (List Char × Option JVal)) : List (List Char × Option JVal) :=
  cf.filter (fun kv => decide (kv.2 ≠ pyGetOpt sf kv.1))

/-- The WorkItemChange dataclass of ADO_Update.py. -/
structure WorkItemChange where
  id : Nat
  changes : List (List Char × Option JVal)
deriving DecidableEq, Repr

/-- Python str.endswith for the dot-json suffix test. -/
def pyEndsWith (suffix l : List Char) : Bool := suffix.isSuffixOf l

/-- The function detect_changes of ADO_Update.py.  A directory is an
association list from file name to parsed record, in listing order;
current and snapshot files are paired by file name, a current file with no
snapshot counterpart is reported with all tracked fields, and names not
ending in dot json are skipped. -/
def detect_changes (current snapshot : List (List Char × WIData)) : List WorkItemChange :=
  current.filterMap fun fd =>
    if pyEndsWith ".json".data fd.1 then
      match snapshot.find? (fun sd => sd.1 == fd.1) with
      | none => some ⟨fd.2.id, get_important_fields fd.2⟩
      | some sd =>
        let fc := fieldChanges (get_important_fields fd.2) (get_important_fields sd.2)
        if fc = [] then none else some ⟨fd.2.id, fc⟩
    else none

/-! ### Lemmas about the embedded text utilities -/

theorem dropWhile_head_not {p : Char → Bool} :
    ∀ {l : List Char} {c : Char}, (l.dropWhile p).head? = some c → p c = false := by
  intro l
  induction l with
  | nil => intro c h; simp at h
  | cons a t ih =>
    intro c h
    rw [List.dropWhile_cons] at h
    by_cases ha : p a
    · exact ih (by simpa [ha] using h)
    · rw [if_neg ha] at h
      simp at h
      subst h
      simpa using ha

theorem dropWhile_eq_self_of_head {p : Char → Bool} {l : List Char}
    (h : ∀ c, l.head? = some c → p c = false) : l.dropWhile p = l := by
  cases l with
  | nil => rfl
  | cons a t => rw [List.dropWhile_cons, h a rfl]; simp

theorem dropWhile_suffix (p : Char → Bool) (l : List Char) :
    ∃ pre, l = pre ++ l.dropWhile p := by
  induction l with
  | nil => exact ⟨[], rfl⟩
  | cons a t ih =>
    by_cases ha : p a
    · rcases ih with ⟨pre, hpre⟩
      exact ⟨a :: pre, by rw [List.dropWhile_cons]; simp [ha]; exact hpre⟩
    · exact ⟨[], by rw [List.dropWhile_cons]; simp [ha]⟩

theorem pyStrip_getLast_not {l : List Char} {c : Char}
    (h : (pyStrip l).getLast? = some c) : isPySpace c = false := by
  unfold pyStrip at h
  rw [List.getLast?_reverse] at h
  exact dropWhile_head_not h

theorem pyStrip_head_not {l : List Char} {c : Char}
    (h : (pyStrip l).head? = some c) : isPySpace c = false := by
  unfold pyStrip at h
  rw [List.head?_reverse] at h
  rcases dropWhile_suffix isPySpace (l.dropWhile isPySpace).reverse with ⟨pre, hpre⟩
  have hA : (l.dropWhile isPySpace).reverse.getLast? = some c := by
    rw [hpre, List.getLast?_append, h]
    rfl
  rw [List.getLast?_reverse] at hA
  exact dropWhile_head_not hA

theorem pyStrip_eq_self_of {l : List Char}
    (h1 : ∀ c, l.head? = some c → isPySpace c = false)
    (h2 : ∀ c, l.getLast? = some c → isPySpace c = false) : pyStrip l = l := by
  unfold pyStrip
  rw [dropWhile_eq_self_of_head h1]
  rw [dropWhile_eq_self_of_head (fun c hc => h2 c (by rwa [List.head?_reverse] at hc))]
  exact List.reverse_reverse l

theorem pyStrip_idem (l : List Char) : pyStrip (pyStrip l) = pyStrip l :=
  pyStrip_eq_self_of (fun _ h => pyStrip_head_not h) (fun _ h => pyStrip_getLast_not h)

theorem mem_pyStrip {l : List Char} {c : Char} (h : c ∈ pyStrip l) : c ∈ l := by
  unfold pyStrip at h
  rw [List.mem_reverse] at h
  have h2 := (List.dropWhile_sublist isPySpace).mem h
  rw [List.mem_reverse] at h2
  exact (List.dropWhile_sublist isPySpace).mem h2

theorem joinSep_single (sep l : List Char) : joinSep sep [l] = l := rfl

theorem joinSep_cons_cons (sep l m : List Char) (L : List (List Char)) :
    joinSep sep (l :: m :: L) = l ++ sep ++ joinSep sep (m :: L) := rfl

theorem joinSep_ne_nil {sep l : List Char} {L : List (List Char)}
    (h : l ≠ []) : joinSep sep (l :: L) ≠ [] := by
  cases L with
  | nil => simpa [joinSep_single] using h
  | cons m L' =>
    rw [joinSep_cons_cons]
    intro hc
    exact h (List.append_eq_nil.mp (List.append_eq_nil.mp hc).1).1

theorem joinSep_head? {sep l : List Char} (L : List (List Char)) (h : l ≠ []) :
    (joinSep sep (l :: L)).head? = l.head? := by
  cases L with
  | nil => rfl
  | cons m L' =>
    rw [joinSep_cons_cons, List.append_assoc]
    exact List.head?_append_of_ne_nil l h

theorem joinSep_getLast? {sep : List Char} :
    ∀ {L : List (List Char)}, L ≠ [] → (∀ m ∈ L, m ≠ []) →
      ∃ m ∈ L, (joinSep sep L).getLast? = m.getLast? := by
  intro L
  induction L with
  | nil => intro h _; exact absurd rfl h
  | cons l L' ih =>
    intro _ hm
    cases L' with
    | nil => exact ⟨l, by simp, rfl⟩
    | cons m L'' =>
      rcases ih (by simp) (fun x hx => hm x (List.mem_cons_of_mem _ hx)) with ⟨w, hw, hlast⟩
      refine ⟨w, List.mem_cons_of_mem _ hw, ?_⟩
      have hwne : w ≠ [] := hm w (List.mem_cons_of_mem _ hw)
      rcases hd : w.getLast? with _ | d
      · exact absurd (List.getLast?_eq_none_iff.mp hd) hwne
      · rw [joinSep_cons_cons, List.append_assoc, List.getLast?_append,
          List.getLast?_append, hlast, hd]
        rfl

theorem mem_joinSep {sep : List Char} {c : Char} :
    ∀ {L : List (List Char)}, c ∈ joinSep sep L → c ∈ sep ∨ ∃ m ∈ L, c ∈ m := by
  intro L
  induction L with
  | nil => intro h; simp [joinSep] at h
  | cons l L' ih =>
    intro h
    cases L' with
    | nil =>
      rw [joinSep_single] at h
      exact Or.inr ⟨l, by simp, h⟩
    | cons m L'' =>
      rw [joinSep_cons_cons, List.append_assoc, List.mem_append, List.mem_append] at h
      rcases h with h | h | h
      · exact Or.inr ⟨l, by simp, h⟩
      · exact Or.inl h
      · rcases ih h with h' | ⟨w, hw, hcw⟩
        · exact Or.inl h'
        · exact Or.inr ⟨w, List.mem_cons_of_mem _ hw, hcw⟩

theorem slGo_nil (cur : List Char) : slGo cur [] = [cur.reverse] := rfl

theorem slGo_cons (cur : List Char) (c : Char) (rest : List Char) :
    slGo cur (c :: rest) =
      if isLB c = true then
        cur.reverse :: (match rest with | [] => [] | _ :: _ => slGo [] rest)
      else slGo (c :: cur) rest := rfl

theorem slGo_segments_noLB :
    ∀ (l cur : List Char), (∀ c ∈ cur, isLB c = false) →
      ∀ seg ∈ slGo cur l, ∀ c ∈ seg, isLB c = false := by
  intro l
  induction l with
  | nil =>
    intro cur hcur seg hseg c hc
    rw [slGo_nil] at hseg
    simp at hseg
    subst hseg
    exact hcur c (by simpa using hc)
  | cons a rest ih =>
    intro cur hcur seg hseg c hc
    rw [slGo_cons] at hseg
    by_cases ha : isLB a
    · rw [if_pos ha] at hseg
      rcases List.mem_cons.mp hseg with h | h
      · subst h
        exact hcur c (by simpa using hc)
      · cases rest with
        | nil => simp at h
        | cons b rest' => exact ih [] (by simp) seg h c hc
    · rw [if_neg ha] at hseg
      refine ih (a :: cur) ?_ seg hseg c hc
      intro c' hc'
      rcases List.mem_cons.mp hc' with h | h
      · subst h; simpa using ha
      · exact hcur c' h

theorem slGo_append :
    ∀ (l cur m : List Char), (∀ c ∈ l, isLB c = false) →
      slGo cur (l ++ m) = slGo (l.reverse ++ cur) m := by
  intro l
  induction l with
  | nil => intro cur m _; rfl
  | cons a l' ih =>
    intro cur m h
    have ha : isLB a = false := h a (by simp)
    rw [List.cons_append, slGo_cons, if_neg (by simp [ha])]
    rw [ih (a :: cur) m (fun c hc => h c (List.mem_cons_of_mem _ hc))]
    congr 1
    simp

theorem normCRLF_cons {c : Char} (hc : c ≠ '\r') (rest : List Char) :
    normCRLF (c :: rest) = c :: normCRLF rest := by
  rw [normCRLF.eq_def]
  split
  next heq => cases heq
  next r heq =>
    rw [List.cons.injEq] at heq
    exact absurd heq.1 hc
  next c' rest' heq =>
    rw [List.cons.injEq] at heq
    rw [heq.1, heq.2]

theorem normCRLF_id : ∀ {l : List Char}, '\r' ∉ l → normCRLF l = l := by
  intro l
  induction l with
  | nil => intro _; rfl
  | cons c rest ih =>
    intro h
    have hc : c ≠ '\r' := fun e => h (by rw [e]; simp)
    rw [normCRLF_cons hc, ih (fun hm => h (List.mem_cons_of_mem _ hm))]

theorem pySplitlines_noLB {l : List Char} (hne : l ≠ [])
    (h : ∀ c ∈ l, isLB c = false) : pySplitlines l = [l] := by
  cases l with
  | nil => exact absurd rfl hne
  | cons a t =>
    show slGo [] (normCRLF (a :: t)) = [a :: t]
    rw [normCRLF_id (fun hm => absurd (h '\r' hm) (by decide))]
    have := slGo_append (a :: t) [] [] h
    rw [List.append_nil] at this
    rw [this, slGo_nil, List.append_nil, List.reverse_reverse]

theorem pySplitlines_eq {x : List Char} (hne : x ≠ []) :
    pySplitlines x = slGo [] (normCRLF x) := by
  cases x with
  | nil => exact absurd rfl hne
  | cons a t => rfl

theorem noCR_joinSep {L : List (List Char)}
    (hm : ∀ m ∈ L, ∀ c ∈ m, isLB c = false) : '\r' ∉ joinSep ['\n'] L := by
  intro hmem
  rcases mem_joinSep hmem with hs | ⟨w, hw, hcw⟩
  · simp at hs
  · exact absurd (hm w hw '\r' hcw) (by decide)

theorem pySplitlines_joinSep :
    ∀ {L : List (List Char)}, L ≠ [] →
      (∀ m ∈ L, m ≠ [] ∧ ∀ c ∈ m, isLB c = false) →
      pySplitlines (joinSep ['\n'] L) = L := by
  intro L
  induction L with
  | nil => intro h _; exact absurd rfl h
  | cons l L' ih =>
    intro _ hm
    have hl := hm l (by simp)
    cases L' with
    | nil => exact pySplitlines_noLB hl.1 hl.2
    | cons m L'' =>
      have hrest : ∀ x ∈ m :: L'', x ≠ [] ∧ ∀ c ∈ x, isLB c = false :=
        fun x hx => hm x (List.mem_cons_of_mem _ hx)
      have hJne : joinSep ['\n'] (m :: L'') ≠ [] := joinSep_ne_nil (hrest m (by simp)).1
      have hXne : joinSep ['\n'] (l :: m :: L'') ≠ [] := joinSep_ne_nil hl.1
      rw [pySplitlines_eq hXne,
        normCRLF_id (noCR_joinSep (fun x hx => (hm x hx).2)),
        joinSep_cons_cons, List.append_assoc, List.singleton_append,
        slGo_append l [] ('\n' :: joinSep ['\n'] (m :: L'')) hl.2,
        List.append_nil, slGo_cons, if_pos (by decide)]
      rw [List.reverse_reverse]
      have htail : (match joinSep ['\n'] (m :: L'') with
          | [] => ([] : List (List Char))
          | _ :: _ => slGo [] (joinSep ['\n'] (m :: L''))) = m :: L'' := by
        have hih := ih (by simp) hrest
        rw [pySplitlines_eq hJne,
          normCRLF_id (noCR_joinSep (fun x hx => (hrest x hx).2))] at hih
        rcases hJ : joinSep ['\n'] (m :: L'') with _ | ⟨a, t⟩
        · exact absurd hJ hJne
        · rw [hJ] at hih
          exact hih
      rw [htail]

theorem splitNN_nil : splitNN [] = [[]] := rfl

theorem splitNN_nn (rest : List Char) :
    splitNN ('\n' :: '\n' :: rest) = [] :: splitNN rest := rfl

theorem splitNN_ne_nil : ∀ (l : List Char), splitNN l ≠ [] := by
  intro l
  rw [splitNN.eq_def]
  split
  · simp
  · split <;> simp
  · simp

theorem splitNN_cons {c : Char} {rest : List Char}
    (h : c ≠ '\n' ∨ rest.head? ≠ some '\n') :
    splitNN (c :: rest) =
      match splitNN rest with
      | [] => [[c]]
      | hd :: tl => (c :: hd) :: tl := by
  rw [splitNN.eq_def]
  split
  next r heq =>
    rw [List.cons.injEq] at heq
    rcases h with h1 | h1
    · exact absurd heq.1 h1
    · exact absurd (by rw [heq.2]; rfl) h1
  next c' rest' heq =>
    rw [List.cons.injEq] at heq
    rw [heq.1, heq.2]
  next heq => cases heq

theorem splitNN_prepend :
    ∀ (l m : List Char), '\n' ∉ l →
      ∃ hd tl, splitNN m = hd :: tl ∧ splitNN (l ++ m) = (l ++ hd) :: tl := by
  intro l
  induction l with
  | nil =>
    intro m _
    rcases hs : splitNN m with _ | ⟨hd, tl⟩
    · exact absurd hs (splitNN_ne_nil m)
    · exact ⟨hd, tl, rfl, by simpa using hs⟩
  | cons c l' ih =>
    intro m h
    have hc : c ≠ '\n' := fun e => h (show '\n' ∈ c :: l' by rw [e]; simp)
    rcases ih m (fun hm => h (List.mem_cons_of_mem _ hm)) with ⟨hd, tl, hs, hsp⟩
    refine ⟨hd, tl, hs, ?_⟩
    have heq := @splitNN_cons c (l' ++ m) (Or.inl hc)
    rw [hsp] at heq
    rw [List.cons_append, heq]
    rfl

theorem splitNN_no_lf {l : List Char} (h : '\n' ∉ l) : splitNN l = [l] := by
  rcases splitNN_prepend l [] h with ⟨hd, tl, hs, hsp⟩
  rw [splitNN_nil] at hs
  rw [List.cons.injEq] at hs
  rw [List.append_nil] at hsp
  rw [hsp, ← hs.1, ← hs.2, List.append_nil]

theorem splitNN_joinSep_nn :
    ∀ {P : List (List Char)}, P ≠ [] → (∀ q ∈ P, '\n' ∉ q) →
      splitNN (joinSep ['\n', '\n'] P) = P := by
  intro P
  induction P with
  | nil => intro h _; exact absurd rfl h
  | cons q P' ih =>
    intro _ hq
    cases P' with
    | nil => exact splitNN_no_lf (hq q (by simp))
    | cons r P'' =>
      rw [joinSep_cons_cons, List.append_assoc]
      show splitNN (q ++ ('\n' :: '\n' :: joinSep ['\n', '\n'] (r :: P''))) = q :: r :: P''
      rcases splitNN_prepend q ('\n' :: '\n' :: joinSep ['\n', '\n'] (r :: P''))
          (hq q (by simp)) with ⟨hd, tl, hs, hsp⟩
      rw [splitNN_nn, ih (by simp) (fun x hx => hq x (List.mem_cons_of_mem _ hx)),
        List.cons.injEq] at hs
      rw [hsp, ← hs.1, ← hs.2, List.append_nil]

theorem filterMap_id_of {α : Type} {f : α → Option α} :
    ∀ {L : List α}, (∀ a ∈ L, f a = some a) → L.filterMap f = L := by
  intro L
  induction L with
  | nil => intro _; rfl
  | cons a t ih =>
    intro h
    rw [List.filterMap_cons, h a (by simp), ih (fun x hx => h x (List.mem_cons_of_mem _ hx))]

theorem pySplitlines_segments_noLB {l seg : List Char}
    (h : seg ∈ pySplitlines l) : ∀ c ∈ seg, isLB c = false := by
  cases l with
  | nil => simp [pySplitlines] at h
  | cons a t => exact slGo_segments_noLB _ [] (by simp) seg h

theorem cleanPara_props {para q : List Char} (h : cleanPara para = some q) :
    q ≠ [] ∧ (∀ c ∈ q, isLB c = false) ∧
    (∀ c, q.head? = some c → isPySpace c = false) ∧
    (∀ c, q.getLast? = some c → isPySpace c = false) := by
  unfold cleanPara at h
  set lines := ((pySplitlines para).map pyStrip).filter (fun x => decide (x ≠ [])) with hlines
  by_cases hl : lines = []
  · rw [if_pos hl] at h; cases h
  · rw [if_neg hl] at h
    rw [Option.some.injEq] at h
    subst h
    have hmem : ∀ m ∈ lines, m ≠ [] ∧ (∀ c ∈ m, isLB c = false) ∧
        (∀ c, m.head? = some c → isPySpace c = false) ∧
        (∀ c, m.getLast? = some c → isPySpace c = false) := by
      intro m hm
      rw [hlines, List.mem_filter] at hm
      rcases hm with ⟨hm1, hm2⟩
      rw [List.mem_map] at hm1
      rcases hm1 with ⟨seg, hseg, hstrip⟩
      refine ⟨by simpa using hm2, ?_, ?_, ?_⟩
      · intro c hc
        rw [← hstrip] at hc
        exact pySplitlines_segments_noLB hseg c (mem_pyStrip hc)
      · intro c hc; rw [← hstrip] at hc; exact pyStrip_head_not hc
      · intro c hc; rw [← hstrip] at hc; exact pyStrip_getLast_not hc
    rcases hcons : lines with _ | ⟨m0, rest⟩
    · exact absurd hcons hl
    · have hm0 := hmem m0 (by rw [hcons]; simp)
      refine ⟨joinSep_ne_nil hm0.1, ?_, ?_, ?_⟩
      · intro c hc
        rcases mem_joinSep hc with hs | ⟨w, hw, hcw⟩
        · simp at hs; rw [hs]; decide
        · exact (hmem w (by rw [hcons]; exact hw)).2.1 c hcw
      · intro c hc
        rw [joinSep_head? rest hm0.1] at hc
        exact hm0.2.2.1 c hc
      · intro c hc
        rcases joinSep_getLast? (L := m0 :: rest) (by simp)
            (fun m hm => (hmem m (by rw [hcons]; exact hm)).1) with ⟨w, hw, hlast⟩
        rw [hlast] at hc
        exact (hmem w (by rw [hcons]; exact hw)).2.2.2 c hc

theorem cleanPara_self {q : List Char} (hne : q ≠ [])
    (hnoLB : ∀ c ∈ q, isLB c = false)
    (hh : ∀ c, q.head? = some c → isPySpace c = false)
    (hl : ∀ c, q.getLast? = some c → isPySpace c = false) :
    cleanPara q = some q := by
  unfold cleanPara
  rw [pySplitlines_noLB hne hnoLB]
  have hq : pyStrip q = q := pyStrip_eq_self_of hh hl
  simp [hq, hne, joinSep_single]

theorem normalizeWs_idem (l : List Char) : normalizeWs (normalizeWs l) = normalizeWs l := by
  unfold normalizeWs
  set P := (splitNN l).filterMap cleanPara with hP
  have hprops : ∀ q ∈ P, q ≠ [] ∧ (∀ c ∈ q, isLB c = false) ∧
      (∀ c, q.head? = some c → isPySpace c = false) ∧
      (∀ c, q.getLast? = some c → isPySpace c = false) := by
    intro q hq
    rw [hP, List.mem_filterMap] at hq
    rcases hq with ⟨para, _, hpa⟩
    exact cleanPara_props hpa
  by_cases hPe : P = []
  · rw [hPe]; rfl
  · rw [splitNN_joinSep_nn hPe
      (fun q hq hmem => absurd ((hprops q hq).2.1 '\n' hmem) (by decide))]
    rw [filterMap_id_of (fun q hq => cleanPara_self (hprops q hq).1
      (hprops q hq).2.1 (hprops q hq).2.2.1 (hprops q hq).2.2.2)]

theorem stGo_nil (pending : List Char) : stGo pending [] = pending.reverse := rfl

theorem stGo_cons (pending : List Char) (a : Char) (rest : List Char) :
    stGo pending (a :: rest) =
      if a = '>' then
        match pending with
        | [] => '>' :: stGo [] rest
        | ['<'] => '<' :: '>' :: stGo [] rest
        | _ => stGo [] rest
      else if a = '<' then
        match pending with
        | [] => stGo ['<'] rest
        | _ => stGo (a :: pending) rest
      else
        match pending with
        | [] => a :: stGo [] rest
        | _ => stGo (a :: pending) rest := rfl


theorem stGo_subset :
    ∀ (l pending : List Char) {c : Char}, c ∈ stGo pending l → c ∈ pending ∨ c ∈ l := by
  intro l
  induction l with
  | nil =>
    intro pending c h
    rw [stGo_nil] at h
    exact Or.inl (by simpa using h)
  | cons a rest ih =>
    intro pending c h
    rw [stGo_cons] at h
    by_cases hgt : a = '>'
    · rw [if_pos hgt] at h
      split at h
      · rcases List.mem_cons.mp h with h1 | h1
        · exact Or.inr (by rw [h1, hgt]; simp)
        · rcases ih [] h1 with h2 | h2
          · simp at h2
          · exact Or.inr (List.mem_cons_of_mem _ h2)
      · rcases List.mem_cons.mp h with h1 | h1
        · exact Or.inl (by rw [h1]; simp)
        · rcases List.mem_cons.mp h1 with h2 | h2
          · exact Or.inr (by rw [h2, hgt]; simp)
          · rcases ih [] h2 with h3 | h3
            · simp at h3
            · exact Or.inr (List.mem_cons_of_mem _ h3)
      · rcases ih [] h with h1 | h1
        · simp at h1
        · exact Or.inr (List.mem_cons_of_mem _ h1)
    · rw [if_neg hgt] at h
      by_cases hlt : a = '<'
      · rw [if_pos hlt] at h
        split at h
        · rcases ih ['<'] h with h1 | h1
          · have h2 : c = '<' := by simpa using h1
            exact Or.inr (by rw [h2, hlt]; simp)
          · exact Or.inr (List.mem_cons_of_mem _ h1)
        · rcases ih (a :: _) h with h1 | h1
          · rcases List.mem_cons.mp h1 with h2 | h2
            · exact Or.inr (by rw [h2]; simp)
            · exact Or.inl h2
          · exact Or.inr (List.mem_cons_of_mem _ h1)
      · rw [if_neg hlt] at h
        split at h
        · rcases List.mem_cons.mp h with h1 | h1
          · exact Or.inr (by rw [h1]; simp)
          · rcases ih [] h1 with h2 | h2
            · simp at h2
            · exact Or.inr (List.mem_cons_of_mem _ h2)
        · rcases ih (a :: _) h with h1 | h1
          · rcases List.mem_cons.mp h1 with h2 | h2
            · exact Or.inr (by rw [h2]; simp)
            · exact Or.inl h2
          · exact Or.inr (List.mem_cons_of_mem _ h1)

theorem stGo_id_no_lt : ∀ {l : List Char}, '<' ∉ l → stGo [] l = l := by
  intro l
  induction l with
  | nil => intro _; rfl
  | cons a rest ih =>
    intro h
    have ha : a ≠ '<' := fun e => h (show '<' ∈ a :: rest by rw [e]; simp)
    have hr : stGo [] rest = rest := ih (fun hm => h (List.mem_cons_of_mem _ hm))
    rw [stGo_cons]
    by_cases hgt : a = '>'
    · rw [if_pos hgt, hr, hgt]
    · rw [if_neg hgt, if_neg ha, hr]

theorem stripTags_id {l : List Char} (h : '<' ∉ l) : stripTags l = l :=
  stGo_id_no_lt h

theorem mem_stripTags {l : List Char} {c : Char} (h : c ∈ stripTags l) : c ∈ l := by
  rcases stGo_subset l [] h with h1 | h1
  · simp at h1
  · exact h1

theorem replNbsp_id : ∀ {l : List Char}, '&' ∉ l → replNbsp l = l := by
  intro l
  induction l with
  | nil => intro _; rfl
  | cons a rest ih =>
    intro h
    have ha : a ≠ '&' := fun e => h (show '&' ∈ a :: rest by rw [e]; simp)
    have hr := ih (fun hm => h (List.mem_cons_of_mem _ hm))
    rw [replNbsp.eq_def]
    split
    next heq =>
      rw [List.cons.injEq] at heq
      exact absurd heq.1 ha
    next c' rest' heq =>
      rw [List.cons.injEq] at heq
      rw [← heq.1, ← heq.2, hr]
    next heq => cases heq

theorem replAmp_id : ∀ {l : List Char}, '&' ∉ l → replAmp l = l := by
  intro l
  induction l with
  | nil => intro _; rfl
  | cons a rest ih =>
    intro h
    have ha : a ≠ '&' := fun e => h (show '&' ∈ a :: rest by rw [e]; simp)
    have hr := ih (fun hm => h (List.mem_cons_of_mem _ hm))
    rw [replAmp.eq_def]
    split
    next heq =>
      rw [List.cons.injEq] at heq
      exact absurd heq.1 ha
    next c' rest' heq =>
      rw [List.cons.injEq] at heq
      rw [← heq.1, ← heq.2, hr]
    next heq => cases heq

theorem replLt_id : ∀ {l : List Char}, '&' ∉ l → replLt l = l := by
  intro l
  induction l with
  | nil => intro _; rfl
  | cons a rest ih =>
    intro h
    have ha : a ≠ '&' := fun e => h (show '&' ∈ a :: rest by rw [e]; simp)
    have hr := ih (fun hm => h (List.mem_cons_of_mem _ hm))
    rw [replLt.eq_def]
    split
    next heq =>
      rw [List.cons.injEq] at heq
      exact absurd heq.1 ha
    next c' rest' heq =>
      rw [List.cons.injEq] at heq
      rw [← heq.1, ← heq.2, hr]
    next heq => cases heq

theorem replGt_id : ∀ {l : List Char}, '&' ∉ l → replGt l = l := by
  intro l
  induction l with
  | nil => intro _; rfl
  | cons a rest ih =>
    intro h
    have ha : a ≠ '&' := fun e => h (show '&' ∈ a :: rest by rw [e]; simp)
    have hr := ih (fun hm => h (List.mem_cons_of_mem _ hm))
    rw [replGt.eq_def]
    split
    next heq =>
      rw [List.cons.injEq] at heq
      exact absurd heq.1 ha
    next c' rest' heq =>
      rw [List.cons.injEq] at heq
      rw [← heq.1, ← heq.2, hr]
    next heq => cases heq

theorem replQuot_id : ∀ {l : List Char}, '&' ∉ l → replQuot l = l := by
  intro l
  induction l with
  | nil => intro _; rfl
  | cons a rest ih =>
    intro h
    have ha : a ≠ '&' := fun e => h (show '&' ∈ a :: rest by rw [e]; simp)
    have hr := ih (fun hm => h (List.mem_cons_of_mem _ hm))
    rw [replQuot.eq_def]
    split
    next heq =>
      rw [List.cons.injEq] at heq
      exact absurd heq.1 ha
    next c' rest' heq =>
      rw [List.cons.injEq] at heq
      rw [← heq.1, ← heq.2, hr]
    next heq => cases heq

theorem replApos_id : ∀ {l : List Char}, '&' ∉ l → replApos l = l := by
  intro l
  induction l with
  | nil => intro _; rfl
  | cons a rest ih =>
    intro h
    have ha : a ≠ '&' := fun e => h (show '&' ∈ a :: rest by rw [e]; simp)
    have hr := ih (fun hm => h (List.mem_cons_of_mem _ hm))
    rw [replApos.eq_def]
    split
    next heq =>
      rw [List.cons.injEq] at heq
      exact absurd heq.1 ha
    next c' rest' heq =>
      rw [List.cons.injEq] at heq
      rw [← heq.1, ← heq.2, hr]
    next heq => cases heq

theorem replEntities_id {l : List Char} (h : '&' ∉ l) : replEntities l = l := by
  unfold replEntities
  rw [replNbsp_id h, replAmp_id h, replLt_id h, replGt_id h, replQuot_id h, replApos_id h]

theorem neGo_s0_cons (c : Char) (rest : List Char) :
    neGo .s0 (c :: rest) =
      if c = '&' then neGo .s1 rest else (neGo .s0 rest).map (c :: ·) := rfl

theorem neGo_s0_id : ∀ {l : List Char}, '&' ∉ l → neGo .s0 l = some l := by
  intro l
  induction l with
  | nil => intro _; rfl
  | cons a rest ih =>
    intro h
    have ha : a ≠ '&' := fun e => h (show '&' ∈ a :: rest by rw [e]; simp)
    rw [neGo_s0_cons, if_neg ha, ih (fun hm => h (List.mem_cons_of_mem _ hm))]
    rfl

theorem clean_html_of_no_amp {l : List Char} (h : '&' ∉ l) :
    clean_html l = some (normalizeWs (stripTags l)) := by
  unfold clean_html
  by_cases hl : l = []
  · rw [if_pos hl]
    subst hl
    rfl
  · rw [if_neg hl]
    have h1 : '&' ∉ stripTags l := fun hm => h (mem_stripTags hm)
    rw [replEntities_id h1]
    rw [show subNumEntities (stripTags l) = some (stripTags l) from neGo_s0_id h1]
    rfl

theorem clean_html_shape {s t : List Char} (h : clean_html s = some t) :
    t = [] ∨ ∃ u, t = normalizeWs u := by
  unfold clean_html at h
  by_cases hs : s = []
  · rw [if_pos hs, Option.some.injEq] at h
    exact Or.inl h.symm
  · rw [if_neg hs] at h
    rcases hsub : subNumEntities (replEntities (stripTags s)) with _ | u
    · rw [hsub] at h; cases h
    · rw [hsub] at h
      simp only [Option.map_some', Option.some.injEq] at h
      exact Or.inr ⟨u, h.symm⟩

/-- C4 counterexample: clean_html is not idempotent.  Decoding the named
entities of the input produces a tag-like sequence, which a second
application of clean_html removes. -/
theorem C4_cex_clean_html_not_idempotent :
    clean_html "&lt;b&gt;".data = some "<b>".data ∧
    clean_html "<b>".data = some [] ∧
    clean_html ((clean_html "&lt;b&gt;".data).getD []) ≠ clean_html "&lt;b&gt;".data := by
  refine ⟨by decide, by decide, by decide⟩

/-- C4 (amended): clean_html is idempotent on every input whose first
output contains neither an opening angle bracket nor an ampersand: if
clean_html s returns t and t has no such character, then clean_html t
returns t unchanged.  On outputs that do contain residual markup
introducers, re-decoding changes the text, as the counterexample shows. -/
theorem C4_clean_html_idem_no_markup {s t : List Char} (h : clean_html s = some t)
    (hlt : '<' ∉ t) (hamp : '&' ∉ t) : clean_html t = some t := by
  by_cases ht0 : t = []
  · rw [ht0]; rfl
  · rcases clean_html_shape h with h1 | ⟨u, h2⟩
    · exact absurd h1 ht0
    · rw [clean_html_of_no_amp hamp, stripTags_id hlt, h2, normalizeWs_idem]

/-- C4 witness: a concrete instantiation of the amended idempotence
theorem at an input whose cleaned output has no markup characters. -/
theorem C4_witness :
    clean_html "a b\nc".data = some "a b c".data ∧
    clean_html "a b c".data = some "a b c".data :=
  ⟨by decide,
   C4_clean_html_idem_no_markup
     (s := "a b\nc".data) (by decide) (by decide) (by decide)⟩

/-- C6 counterexample: a numeric entity whose value exceeds the maximal
Unicode code point makes clean_html raise a ValueError (modelled as none);
the entity is not left verbatim in a returned output. -/
theorem C6_cex_invalid_numeric_entity_raises :
    clean_html "&#1114112;".data = none ∧
    clean_html "&#1114112;".data ≠ some "&#1114112;".data := ⟨by decide, by decide⟩

/-- C6 (amended): on inputs containing no ampersand, no entity
substitution fires and clean_html returns normally: the result is exactly
tag stripping followed by whitespace normalization. -/
theorem C6_no_exception_without_ampersand {l : List Char} (h : '&' ∉ l) :
    clean_html l = some (normalizeWs (stripTags l)) := clean_html_of_no_amp h

/-- C6 witness: the amended theorem applied to a concrete tag-bearing
input without an ampersand. -/
theorem C6_witness :
    clean_html "x<b>y z</b>".data = some (normalizeWs (stripTags "x<b>y z</b>".data)) ∧
    clean_html "x<b>y z</b>".data = some "xy z".data :=
  ⟨C6_no_exception_without_ampersand (by decide), by decide⟩

theorem pass1Step_resolved {items : List WorkItem} {x : WorkItem}
    (hp : hasParent x = true) (hres : (findItem items (pidOf x)).isSome = true)
    (st : List WorkItem × List Nat) :
    pass1Step items st x = (appendChild st.1 (pidOf x) x.id, st.2) := by
  unfold pass1Step
  rw [if_pos hp, if_pos hres]

theorem pass1Step_unresolved {items : List WorkItem} {x : WorkItem}
    (hp : hasParent x = true) (hres : (findItem items (pidOf x)).isSome = false)
    (st : List WorkItem × List Nat) :
    pass1Step items st x = st := by
  unfold pass1Step
  rw [if_pos hp, if_neg (by simp [hres])]

theorem pass1Step_root {items : List WorkItem} {x : WorkItem}
    (hp : hasParent x = false) (st : List WorkItem × List Nat) :
    pass1Step items st x = (st.1, st.2 ++ [x.id]) := by
  unfold pass1Step
  rw [if_neg (by simp [hp])]

theorem addedAmong_cons (items : List WorkItem) (x : WorkItem) (L : List WorkItem) (pid : Nat) :
    addedAmong items (x :: L) pid =
      if (hasParent x && (findItem items (pidOf x)).isSome && pidOf x == pid) = true
      then x.id :: addedAmong items L pid else addedAmong items L pid := by
  unfold addedAmong
  rw [List.filter_cons]
  by_cases hc : (hasParent x && (findItem items (pidOf x)).isSome && pidOf x == pid) = true
  · rw [if_pos hc, if_pos hc, List.map_cons]
  · rw [if_neg hc, if_neg hc]

theorem pass1_go (items : List WorkItem) :
    ∀ (L A : List WorkItem) (R : List Nat),
      L.foldl (pass1Step items) (A, R) =
        (A.map (fun y => { y with children := y.children ++ addedAmong items L y.id }),
         R ++ (L.filter (fun x => !hasParent x)).map (fun x => x.id)) := by
  intro L
  induction L with
  | nil =>
    intro A R
    simp [addedAmong]
  | cons x L' ih =>
    intro A R
    rw [List.foldl_cons]
    by_cases hp : hasParent x
    · by_cases hres : (findItem items (pidOf x)).isSome
      · rw [pass1Step_resolved hp hres, ih]
        rw [Prod.mk.injEq]
        refine ⟨?_, ?_⟩
        · unfold appendChild
          rw [List.map_map]
          apply List.map_congr_left
          intro y _
          simp only [Function.comp]
          by_cases hy : y.id = pidOf x
          · rw [if_pos hy]
            rw [addedAmong_cons, if_pos (by simp [hp, hres, hy])]
            simp
          · rw [if_neg hy]
            rw [addedAmong_cons, if_neg (by simp [hp, hres]; intro e; exact absurd e.symm hy)]
        · rw [List.filter_cons]
          simp [hp]
      · rw [pass1Step_unresolved hp (by simpa using hres), ih]
        rw [Prod.mk.injEq]
        refine ⟨?_, ?_⟩
        · apply List.map_congr_left
          intro y _
          rw [addedAmong_cons, if_neg (by simp [hp]; intro h1; exact absurd h1 (by simpa using hres))]
        · rw [List.filter_cons]
          simp [hp]
    · rw [pass1Step_root (by simpa using hp), ih]
      rw [Prod.mk.injEq]
      refine ⟨?_, ?_⟩
      · apply List.map_congr_left
        intro y _
        rw [addedAmong_cons, if_neg (by simp [hp])]
      · rw [List.filter_cons]
        simp [hp, List.append_assoc]

theorem pass1_eq (items : List WorkItem) :
    pass1 items =
      (items.map (fun y => { y with children := y.children ++ addedTo items y.id }),
       rootsIds items) := by
  unfold pass1 rootsIds addedTo
  rw [pass1_go items items items []]
  rw [List.nil_append]

theorem build_hierarchy_roots (items : List WorkItem) :
    (build_hierarchy items).2 = List.insertionSort (· ≤ ·) (rootsIds items) := by
  unfold build_hierarchy
  rw [pass1_eq]

theorem findItem_map_children (items : List WorkItem) (g : WorkItem → List Nat) (i : Nat) :
    findItem (items.map (fun y => { y with children := g y })) i =
      (findItem items i).map (fun y => { y with children := g y }) := by
  unfold findItem
  rw [List.find?_map]
  rfl

theorem childKey_map_children (items : List WorkItem) (g : WorkItem → List Nat) (cid : Nat) :
    childKey (items.map (fun y => { y with children := g y })) cid = childKey items cid := by
  unfold childKey
  rw [findItem_map_children]
  rcases findItem items cid with _ | c
  · rfl
  · rfl

theorem build_hierarchy_arena (items : List WorkItem) :
    (build_hierarchy items).1 =
      items.map (fun y =>
        { y with children := List.insertionSort (fun a b => keyLe (childKey items a) (childKey items b)) (y.children ++ addedTo items y.id) }) := by
  unfold build_hierarchy
  rw [pass1_eq]
  dsimp only
  rw [List.map_map]
  apply List.map_congr_left
  intro y _
  simp only [Function.comp]
  simp only [childKey_map_children]

theorem id_inj {items : List WorkItem} (hnd : (items.map (fun x => x.id)).Nodup)
    {x z : WorkItem} (hx : x ∈ items) (hz : z ∈ items) (h : z.id = x.id) : z = x :=
  (List.nodup_map_iff_inj_on (List.Nodup.of_map _ hnd)).mp hnd z hz x hx h

theorem findItem_isSome_iff {items : List WorkItem} {i : Nat} :
    (findItem items i).isSome = true ↔ ∃ z ∈ items, z.id = i := by
  unfold findItem
  rw [List.find?_isSome]
  simp only [beq_iff_eq]

theorem mem_addedTo {items : List WorkItem} {i pid : Nat} :
    i ∈ addedTo items pid ↔
      ∃ z ∈ items, z.id = i ∧ hasParent z = true ∧
        (findItem items (pidOf z)).isSome = true ∧ pidOf z = pid := by
  unfold addedTo addedAmong
  constructor
  · intro h
    rw [List.mem_map] at h
    rcases h with ⟨z, hz, hzi⟩
    rw [List.mem_filter] at hz
    rcases hz with ⟨hzmem, hcond⟩
    simp only [Bool.and_eq_true, beq_iff_eq] at hcond
    exact ⟨z, hzmem, hzi, hcond.1.1, hcond.1.2, hcond.2⟩
  · rintro ⟨z, hzmem, hzi, h1, h2, h3⟩
    rw [List.mem_map]
    refine ⟨z, ?_, hzi⟩
    rw [List.mem_filter]
    refine ⟨hzmem, ?_⟩
    rw [Bool.and_eq_true, Bool.and_eq_true]
    exact ⟨⟨h1, h2⟩, by simp [h3]⟩

theorem addedTo_nodup {items : List WorkItem}
    (hnd : (items.map (fun x => x.id)).Nodup) (pid : Nat) : (addedTo items pid).Nodup := by
  unfold addedTo addedAmong
  exact List.Sublist.nodup (List.Sublist.map _ (List.filter_sublist items)) hnd

theorem rootsIds_nodup {items : List WorkItem}
    (hnd : (items.map (fun x => x.id)).Nodup) : (rootsIds items).Nodup := by
  unfold rootsIds
  exact List.Sublist.nodup (List.Sublist.map _ (List.filter_sublist items)) hnd

theorem mem_rootsIds {items : List WorkItem} {i : Nat} :
    i ∈ rootsIds items ↔ ∃ z ∈ items, z.id = i ∧ hasParent z = false := by
  unfold rootsIds
  constructor
  · intro h
    rw [List.mem_map] at h
    rcases h with ⟨z, hz, hzi⟩
    rw [List.mem_filter] at hz
    exact ⟨z, hz.1, hzi, by simpa using hz.2⟩
  · rintro ⟨z, hzm, hzi, hp⟩
    rw [List.mem_map]
    exact ⟨z, List.mem_filter.mpr ⟨hzm, by simp [hp]⟩, hzi⟩

theorem arena_children_perm {items : List WorkItem}
    (hch : ∀ x ∈ items, x.children = []) {y : WorkItem}
    (hy : y ∈ (build_hierarchy items).1) :
    ∃ y0 ∈ items, y.id = y0.id ∧ y.children.Perm (addedTo items y0.id) := by
  rw [build_hierarchy_arena, List.mem_map] at hy
  rcases hy with ⟨y0, hy0, hF⟩
  refine ⟨y0, hy0, by rw [← hF], ?_⟩
  rw [← hF]
  show (List.insertionSort (fun a b => keyLe (childKey items a) (childKey items b)) (y0.children ++ addedTo items y0.id)).Perm (addedTo items y0.id)
  rw [hch y0 hy0, List.nil_append]
  exact List.perm_insertionSort _ _

theorem hierarchy_root_placement {items : List WorkItem}
    (hnd : (items.map (fun x => x.id)).Nodup)
    (hch : ∀ x ∈ items, x.children = [])
    {x : WorkItem} (hx : x ∈ items) (hp : hasParent x = false) :
    (build_hierarchy items).2.count x.id = 1 ∧
    ∀ y ∈ (build_hierarchy items).1, x.id ∉ y.children := by
  constructor
  · rw [build_hierarchy_roots, (List.perm_insertionSort _ _).count_eq]
    exact List.count_eq_one_of_mem (rootsIds_nodup hnd) (mem_rootsIds.mpr ⟨x, hx, rfl, hp⟩)
  · intro y hy hmem
    rcases arena_children_perm hch hy with ⟨y0, _, _, hperm⟩
    rcases mem_addedTo.mp (hperm.mem_iff.mp hmem) with ⟨z, hzm, hzi, h1, _, _⟩
    rw [id_inj hnd hx hzm hzi, hp] at h1
    cases h1

theorem not_mem_sorted_roots {items : List WorkItem}
    (hnd : (items.map (fun x => x.id)).Nodup)
    {x : WorkItem} (hx : x ∈ items) (hp : hasParent x = true) :
    x.id ∉ (build_hierarchy items).2 := by
  rw [build_hierarchy_roots]
  intro hmem
  rcases mem_rootsIds.mp ((List.perm_insertionSort _ _).mem_iff.mp hmem)
    with ⟨z, hzm, hzi, hz0⟩
  rw [id_inj hnd hx hzm hzi, hp] at hz0
  cases hz0

theorem sum_count_helper (items : List WorkItem) (p : Nat) :
    (items.map (fun y => if p = y.id then 1 else 0)).sum
      = (items.map (fun y => y.id)).count p := by
  induction items with
  | nil => rfl
  | cons y t ih =>
    rw [List.map_cons, List.sum_cons, List.map_cons, List.count_cons, ih]
    by_cases h : p = y.id
    · have h2 : (y.id == p) = true := by simp [h.symm]
      rw [if_pos h, h2, if_pos (by decide : (true = true))]
      omega
    · have h2 : (y.id == p) = false := by simp; exact fun e => h e.symm
      rw [if_neg h, h2, if_neg (by decide : ¬(false = true))]
      omega

theorem addedTo_count_eq {items : List WorkItem}
    (hnd : (items.map (fun x => x.id)).Nodup)
    {x : WorkItem} (hx : x ∈ items) (hp : hasParent x = true)
    (hres : (findItem items (pidOf x)).isSome = true) (pid : Nat) :
    (addedTo items pid).count x.id = if pidOf x = pid then 1 else 0 := by
  by_cases h : pidOf x = pid
  · rw [if_pos h]
    exact List.count_eq_one_of_mem (addedTo_nodup hnd pid)
      (mem_addedTo.mpr ⟨x, hx, rfl, hp, hres, h⟩)
  · rw [if_neg h, List.count_eq_zero]
    intro hmem
    rcases mem_addedTo.mp hmem with ⟨z, hzm, hzi, _, _, h3⟩
    rw [id_inj hnd hx hzm hzi] at h3
    exact h h3

theorem hierarchy_child_placement {items : List WorkItem}
    (hnd : (items.map (fun x => x.id)).Nodup)
    (hch : ∀ x ∈ items, x.children = [])
    {x : WorkItem} (hx : x ∈ items) (hp : hasParent x = true)
    (hres : (findItem items (pidOf x)).isSome = true) :
    x.id ∉ (build_hierarchy items).2 ∧
    (((build_hierarchy items).1).map (fun y => y.children.count x.id)).sum = 1 := by
  refine ⟨not_mem_sorted_roots hnd hx hp, ?_⟩
  rw [build_hierarchy_arena, List.map_map]
  have hpt : ∀ y0 ∈ items,
      ((fun y => y.children.count x.id) ∘
        (fun y => { y with children := List.insertionSort (fun a b => keyLe (childKey items a) (childKey items b)) (y.children ++ addedTo items y.id) })) y0
      = if pidOf x = y0.id then 1 else 0 := by
    intro y0 hy0
    simp only [Function.comp]
    rw [(List.perm_insertionSort _ _).count_eq, hch y0 hy0, List.nil_append]
    exact addedTo_count_eq hnd hx hp hres y0.id
  rw [List.map_congr_left hpt, sum_count_helper]
  rcases findItem_isSome_iff.mp hres with ⟨z, hzm, hzi⟩
  exact List.count_eq_one_of_mem hnd (List.mem_map.mpr ⟨z, hzm, hzi⟩)

theorem hierarchy_dropped_placement {items : List WorkItem}
    (hnd : (items.map (fun x => x.id)).Nodup)
    (hch : ∀ x ∈ items, x.children = [])
    {x : WorkItem} (hx : x ∈ items) (hp : hasParent x = true)
    (hres : findItem items (pidOf x) = none) :
    x.id ∉ (build_hierarchy items).2 ∧
    ∀ y ∈ (build_hierarchy items).1, x.id ∉ y.children := by
  refine ⟨not_mem_sorted_roots hnd hx hp, ?_⟩
  intro y hy hmem
  rcases arena_children_perm hch hy with ⟨y0, _, _, hperm⟩
  rcases mem_addedTo.mp (hperm.mem_iff.mp hmem) with ⟨z, hzm, hzi, _, h2, _⟩
  rw [id_inj hnd hx hzm hzi, hres] at h2
  cases h2

theorem rootsIds_map_children (items : List WorkItem) (g : WorkItem → List Nat) :
    rootsIds (items.map (fun y => { y with children := g y })) = rootsIds items := by
  unfold rootsIds
  rw [List.filter_map, List.map_map]
  rfl

theorem build_roots_stable (items : List WorkItem) :
    (build_hierarchy (build_hierarchy items).1).2 = (build_hierarchy items).2 := by
  rw [build_hierarchy_roots, build_hierarchy_roots]
  congr 1
  rw [build_hierarchy_arena]
  exact rootsIds_map_children items _

/-- C1 counterexample: for the mapping containing only the item with
identifier 5 and parent reference 99, build_hierarchy returns an empty
root list and attaches the item to no child list: the item is dropped
from the forest, not reattached as a root. -/
theorem C1_cex_unresolved_parent_not_root :
    (build_hierarchy [⟨5, "Task".data, "T".data, [], [], some 99, []⟩]).2 = [] ∧
    5 ∉ (build_hierarchy [⟨5, "Task".data, "T".data, [], [], some 99, []⟩]).2 ∧
    ((build_hierarchy [⟨5, "Task".data, "T".data, [], [], some 99, []⟩]).1).map
      (fun y => (y.id, y.children)) = [(5, [])] :=
  ⟨by decide, by decide, by decide⟩

/-- C1 (amended): an item whose parent reference is truthy but does not
resolve to an identifier of the mapping is dropped by build_hierarchy: it
is placed neither in the returned roots nor in any child list, and no
error is raised (the lookup failure is silently skipped). -/
theorem C1_unresolved_parent_dropped {items : List WorkItem}
    (hnd : (items.map (fun x => x.id)).Nodup)
    (hch : ∀ x ∈ items, x.children = [])
    {x : WorkItem} (hx : x ∈ items) (hp : hasParent x = true)
    (hres : findItem items (pidOf x) = none) :
    x.id ∉ (build_hierarchy items).2 ∧
    ∀ y ∈ (build_hierarchy items).1, x.id ∉ y.children :=
  hierarchy_dropped_placement hnd hch hx hp hres

/-- C1 witness: the amended theorem instantiated at the singleton mapping
of the claim. -/
theorem C1_witness :
    (5 : Nat) ∉ (build_hierarchy [⟨5, "Task".data, "T".data, [], [], some 99, []⟩]).2 :=
  (@C1_unresolved_parent_dropped [⟨5, "Task".data, "T".data, [], [], some 99, []⟩]
    (by decide) (by decide) ⟨5, "Task".data, "T".data, [], [], some 99, []⟩
    (by decide) (by decide) (by decide)).1

/-- C2 counterexample: build_hierarchy is not idempotent.  On the mapping
with root 1 and child 2, a second run appends the child again, so the
child list of item 1 becomes a duplicate pair. -/
theorem C2_cex_second_run_duplicates_children :
    ((build_hierarchy [⟨1, "Feature".data, "F".data, [], [], none, []⟩,
        ⟨2, "Task".data, "T".data, [], [], some 1, []⟩]).1).map
      (fun y => (y.id, y.children)) = [(1, [2]), (2, [])] ∧
    ((build_hierarchy (build_hierarchy [⟨1, "Feature".data, "F".data, [], [], none, []⟩,
        ⟨2, "Task".data, "T".data, [], [], some 1, []⟩]).1).1).map
      (fun y => (y.id, y.children)) = [(1, [2, 2]), (2, [])] ∧
    (build_hierarchy (build_hierarchy [⟨1, "Feature".data, "F".data, [], [], none, []⟩,
        ⟨2, "Task".data, "T".data, [], [], some 1, []⟩]).1).1
      ≠ (build_hierarchy [⟨1, "Feature".data, "F".data, [], [], none, []⟩,
        ⟨2, "Task".data, "T".data, [], [], some 1, []⟩]).1 :=
  ⟨by decide, by decide, by decide⟩

/-- C2 (amended): build_hierarchy never re-initializes child lists, so it
is not idempotent: a second run on the mutated mapping appends every
resolvable child a second time (item 1 ends with child list 2, 2 in the
counterexample), while the returned root sequence is recomputed from
scratch and is identical on every run. -/
theorem C2_roots_stable_children_extended :
    (∀ items : List WorkItem,
      (build_hierarchy (build_hierarchy items).1).2 = (build_hierarchy items).2) ∧
    ((build_hierarchy (build_hierarchy [⟨1, "Feature".data, "F".data, [], [], none, []⟩,
        ⟨2, "Task".data, "T".data, [], [], some 1, []⟩]).1).1).map
      (fun y => (y.id, y.children)) = [(1, [2, 2]), (2, [])] :=
  ⟨fun items => build_roots_stable items, by decide⟩

/-- C3 counterexample: completeness fails.  The item with an unresolved
parent reference appears zero times in the forest: it is neither a root
nor a member of any child list. -/
theorem C3_cex_item_lost :
    (build_hierarchy [⟨1, "Feature".data, "F".data, [], [], none, []⟩,
      ⟨5, "Task".data, "T".data, [], [], some 99, []⟩]).2.count 5 = 0 ∧
    (((build_hierarchy [⟨1, "Feature".data, "F".data, [], [], none, []⟩,
      ⟨5, "Task".data, "T".data, [], [], some 99, []⟩]).1).map
        (fun y => y.children.count 5)).sum = 0 :=
  ⟨by decide, by decide⟩

/-- C3 (amended): placement of every item of a well-formed mapping
(distinct identifiers, child lists initially empty).  An item with a falsy
parent reference appears exactly once among the roots and in no child
list; an item whose parent reference resolves appears in exactly one
child list, exactly once, and not among the roots; an item whose parent
reference is truthy but unresolved appears nowhere — it is lost, never
duplicated. -/
theorem C3_completeness_amended {items : List WorkItem}
    (hnd : (items.map (fun x => x.id)).Nodup)
    (hch : ∀ x ∈ items, x.children = [])
    {x : WorkItem} (hx : x ∈ items) :
    (hasParent x = false →
      (build_hierarchy items).2.count x.id = 1 ∧
      ∀ y ∈ (build_hierarchy items).1, x.id ∉ y.children) ∧
    (hasParent x = true → (findItem items (pidOf x)).isSome = true →
      x.id ∉ (build_hierarchy items).2 ∧
      (((build_hierarchy items).1).map (fun y => y.children.count x.id)).sum = 1) ∧
    (hasParent x = true → findItem items (pidOf x) = none →
      x.id ∉ (build_hierarchy items).2 ∧
      ∀ y ∈ (build_hierarchy items).1, x.id ∉ y.children) :=
  ⟨fun hp => hierarchy_root_placement hnd hch hx hp,
   fun hp hres => hierarchy_child_placement hnd hch hx hp hres,
   fun hp hres => hierarchy_dropped_placement hnd hch hx hp hres⟩

/-- C3 witness: the amended placement theorem instantiated at a concrete
mapping with a root, a resolvable child, and an unresolved item; the
child of item 1 is counted exactly once over all child lists. -/
theorem C3_witness :
    (2 : Nat) ∉ (build_hierarchy [⟨1, "Feature".data, "F".data, [], [], none, []⟩,
      ⟨2, "Task".data, "T".data, [], [], some 1, []⟩,
      ⟨7, "Task".data, "U".data, [], [], some 99, []⟩]).2 ∧
    (((build_hierarchy [⟨1, "Feature".data, "F".data, [], [], none, []⟩,
      ⟨2, "Task".data, "T".data, [], [], some 1, []⟩,
      ⟨7, "Task".data, "U".data, [], [], some 99, []⟩]).1).map
        (fun y => y.children.count 2)).sum = 1 :=
  (@C3_completeness_amended
    [⟨1, "Feature".data, "F".data, [], [], none, []⟩,
     ⟨2, "Task".data, "T".data, [], [], some 1, []⟩,
     ⟨7, "Task".data, "U".data, [], [], some 99, []⟩]
    (by decide) (by decide) ⟨2, "Task".data, "T".data, [], [], some 1, []⟩
    (by decide)).2.1 (by decide) (by decide)

theorem keyLe_total (p q : Nat × Nat) : keyLe p q ∨ keyLe q p := by
  unfold keyLe
  omega

theorem keyLe_trans {p q r : Nat × Nat} (h1 : keyLe p q) (h2 : keyLe q r) : keyLe p r := by
  unfold keyLe at *
  omega

theorem keyLe_ne_lt {p q : Nat × Nat} (h : keyLe p q) (hne : p.2 ≠ q.2) : keyLt p q := by
  unfold keyLe at h
  unfold keyLt
  omega

theorem childKey_snd (items : List WorkItem) (i : Nat) : (childKey items i).2 = i := by
  unfold childKey
  rcases h : findItem items i with _ | c
  · rfl
  · have hc := List.find?_some h
    simp only [beq_iff_eq] at hc
    simp [hc]

theorem roots_sorted {items : List WorkItem}
    (hnd : (items.map (fun x => x.id)).Nodup) :
    List.Sorted (· < ·) (build_hierarchy items).2 := by
  rw [build_hierarchy_roots]
  have hsorted : List.Sorted (· ≤ ·) (List.insertionSort (· ≤ ·) (rootsIds items)) :=
    List.sorted_insertionSort _ _
  exact hsorted.lt_of_le
    (((List.perm_insertionSort _ _).nodup_iff).mpr (rootsIds_nodup hnd))

theorem children_sorted {items : List WorkItem}
    (hnd : (items.map (fun x => x.id)).Nodup)
    (hch : ∀ x ∈ items, x.children = [])
    {y : WorkItem} (hy : y ∈ (build_hierarchy items).1) :
    List.Pairwise (fun a b => keyLt (childKey items a) (childKey items b)) y.children := by
  rcases arena_children_perm hch hy with ⟨y0, _, _, hperm⟩
  have hnodup : y.children.Nodup := (hperm.nodup_iff).mpr (addedTo_nodup hnd y0.id)
  rw [build_hierarchy_arena, List.mem_map] at hy
  rcases hy with ⟨z0, _, hF⟩
  have hsorted : List.Pairwise (fun a b => keyLe (childKey items a) (childKey items b))
      y.children := by
    rw [← hF]
    show List.Pairwise _
      (List.insertionSort (fun a b => keyLe (childKey items a) (childKey items b))
        (z0.children ++ addedTo items z0.id))
    haveI : IsTotal Nat (fun a b => keyLe (childKey items a) (childKey items b)) :=
      ⟨fun a b => keyLe_total _ _⟩
    haveI : IsTrans Nat (fun a b => keyLe (childKey items a) (childKey items b)) :=
      ⟨fun a b c h1 h2 => keyLe_trans h1 h2⟩
    exact List.sorted_insertionSort _ _
  exact (hsorted.and hnodup).imp
    (fun hab => keyLe_ne_lt hab.1
      (by rw [childKey_snd, childKey_snd]; exact hab.2))

/-- C8: the roots returned by build_hierarchy are strictly ascending by
identifier, and the child list of every item of the mutated mapping is
strictly ascending by the composite key of type priority (from the fixed
table with default 99) then identifier.  Strict ascent entails the
stability clause of the claim: two siblings never share a composite key,
since the key carries the identifier, so for equal type priority the
smaller identifier comes first.  The concrete three-item scenario yields
root 1 with children 3 then 2. -/
theorem C8_ordering_invariant {items : List WorkItem}
    (hnd : (items.map (fun x => x.id)).Nodup)
    (hch : ∀ x ∈ items, x.children = []) :
    (List.Sorted (· < ·) (build_hierarchy items).2 ∧
     ∀ y ∈ (build_hierarchy items).1,
       List.Pairwise (fun a b => keyLt (childKey items a) (childKey items b)) y.children) ∧
    (build_hierarchy [⟨1, "Feature".data, "F".data, [], [], none, []⟩,
      ⟨2, "Task".data, "T".data, [], [], some 1, []⟩,
      ⟨3, "User Story".data, "U".data, [], [], some 1, []⟩]).2 = [1] ∧
    ((build_hierarchy [⟨1, "Feature".data, "F".data, [], [], none, []⟩,
      ⟨2, "Task".data, "T".data, [], [], some 1, []⟩,
      ⟨3, "User Story".data, "U".data, [], [], some 1, []⟩]).1).map
        (fun y => (y.id, y.children)) = [(1, [3, 2]), (2, []), (3, [])] :=
  ⟨⟨roots_sorted hnd, fun _ hy => children_sorted hnd hch hy⟩, by decide, by decide⟩

/-- C8 witness: the ordering theorem instantiated at the three-item
scenario of the claim. -/
theorem C8_witness :
    List.Sorted (· < ·) (build_hierarchy [⟨1, "Feature".data, "F".data, [], [], none, []⟩,
      ⟨2, "Task".data, "T".data, [], [], some 1, []⟩,
      ⟨3, "User Story".data, "U".data, [], [], some 1, []⟩]).2 :=
  (@C8_ordering_invariant
    [⟨1, "Feature".data, "F".data, [], [], none, []⟩,
     ⟨2, "Task".data, "T".data, [], [], some 1, []⟩,
     ⟨3, "User Story".data, "U".data, [], [], some 1, []⟩]
    (by decide) (by decide)).1.1

theorem pyGetOpt_map_keys (g : List Char → Option JVal) :
    ∀ (ks : List (List Char)) (k : List Char), k ∈ ks →
      pyGetOpt (ks.map (fun k0 => (k0, g k0))) k = g k := by
  intro ks
  induction ks with
  | nil => intro k h; simp at h
  | cons k0 kt ih =>
    intro k h
    by_cases he : k0 = k
    · have hfind : List.find? (fun kv => kv.1 == k)
          ((k0, g k0) :: kt.map (fun k1 => (k1, g k1))) = some (k0, g k0) := by
        rw [List.find?_cons]
        have hp : ((k0, g k0).1 == k) = true := by simp [he]
        rw [hp]
      unfold pyGetOpt
      rw [List.map_cons] at *
      rw [hfind, he]
    · have hp : ((k0, g k0).1 == k) = false := by simp [he]
      have hstep : pyGetOpt ((k0 :: kt).map (fun k1 => (k1, g k1))) k
          = pyGetOpt (kt.map (fun k1 => (k1, g k1))) k := by
        unfold pyGetOpt
        rw [List.map_cons, List.find?_cons, hp]
      rw [hstep]
      refine ih k ?_
      rcases List.mem_cons.mp h with h1 | h1
      · exact absurd h1.symm he
      · exact h1

theorem pyGetOpt_gif (d : WIData) {k : List Char} (hk : k ∈ importantKeys) :
    pyGetOpt (get_important_fields d) k = pyGet d.fields k := by
  unfold get_important_fields
  exact pyGetOpt_map_keys (fun k0 => pyGet d.fields k0) importantKeys k hk

theorem fieldChanges_mem {d sd : WIData} {k : List Char} {v : Option JVal} :
    (k, v) ∈ fieldChanges (get_important_fields d) (get_important_fields sd) ↔
      (k ∈ importantKeys ∧ v = pyGet d.fields k ∧
        pyGet d.fields k ≠ pyGet sd.fields k) := by
  unfold fieldChanges
  rw [List.mem_filter]
  constructor
  · rintro ⟨hmem, hcond⟩
    rw [decide_eq_true_eq] at hcond
    unfold get_important_fields at hmem
    rw [List.mem_map] at hmem
    rcases hmem with ⟨k0, hk0, heq⟩
    rw [Prod.mk.injEq] at heq
    rcases heq with ⟨h1, h2⟩
    subst h1
    refine ⟨hk0, h2.symm, ?_⟩
    rw [h2, ← pyGetOpt_gif sd hk0]
    exact hcond
  · rintro ⟨hk, hv, hne⟩
    constructor
    · unfold get_important_fields
      rw [List.mem_map]
      exact ⟨k, hk, by rw [hv]⟩
    · rw [decide_eq_true_eq]
      show v ≠ pyGetOpt (get_important_fields sd) k
      rw [pyGetOpt_gif sd hk, hv]
      exact hne

theorem fieldChanges_nil_iff {d sd : WIData} :
    fieldChanges (get_important_fields d) (get_important_fields sd) = [] ↔
      ∀ k ∈ importantKeys, pyGet d.fields k = pyGet sd.fields k := by
  rw [List.eq_nil_iff_forall_not_mem]
  constructor
  · intro h k hk
    by_contra hne
    exact h (k, pyGet d.fields k) (fieldChanges_mem.mpr ⟨hk, rfl, hne⟩)
  · intro h kv hkv
    obtain ⟨k, v⟩ := kv
    rcases fieldChanges_mem.mp hkv with ⟨hk, _, hne⟩
    exact hne (h k hk)

theorem detect_changes_pair (fn : List Char) (d sd : WIData)
    (hjson : pyEndsWith ".json".data fn = true) :
    detect_changes [(fn, d)] [(fn, sd)] =
      if fieldChanges (get_important_fields d) (get_important_fields sd) = [] then []
      else [⟨d.id, fieldChanges (get_important_fields d) (get_important_fields sd)⟩] := by
  unfold detect_changes
  have hfind : List.find? (fun sd0 => sd0.1 == fn) [(fn, sd)] = some (fn, sd) := by
    rw [List.find?_cons]
    have hp : ((fn, sd).1 == fn) = true := by simp
    rw [hp]
  rw [List.filterMap_cons]
  by_cases hfc : fieldChanges (get_important_fields d) (get_important_fields sd) = []
  · simp only [hjson, if_true, hfind, hfc, if_pos rfl]
    simp [hfc]
  · simp only [hjson, if_true, hfind]
    simp [hfc]

/-- C5 counterexample: for the pair of the claim, the emitted change maps
the state field to the value New taken from the current record, not to
the snapshot value Done that the claim states. -/
theorem C5_cex_changed_value_is_current :
    detect_changes
      [("10.json".data, ⟨10, [("System.Title".data, JVal.s "A".data),
          ("System.State".data, JVal.s "New".data)]⟩)]
      [("10.json".data, ⟨10, [("System.Title".data, JVal.s "A".data),
          ("System.State".data, JVal.s "Done".data)]⟩)]
      = [⟨10, [("System.State".data, some (JVal.s "New".data))]⟩] ∧
    detect_changes
      [("10.json".data, ⟨10, [("System.Title".data, JVal.s "A".data),
          ("System.State".data, JVal.s "New".data)]⟩)]
      [("10.json".data, ⟨10, [("System.Title".data, JVal.s "A".data),
          ("System.State".data, JVal.s "Done".data)]⟩)]
      ≠ [⟨10, [("System.State".data, some (JVal.s "Done".data))]⟩] :=
  ⟨by decide, by decide⟩

/-- C5 (amended): for a current and snapshot record stored under the same
json file name, every emitted ChangeRecord carries the current record
identifier and collects exactly the tracked fields whose values differ,
each mapped to the value the field has in the current record; no record
is emitted exactly when all tracked fields agree.  In particular, for the
concrete pair of the claim one ChangeRecord is emitted, for id 10, whose
changed fields map the state field to New (the current value). -/
theorem C5_changes_are_current_values :
    (∀ (fn : List Char) (d sd : WIData), pyEndsWith ".json".data fn = true →
      (∀ c ∈ detect_changes [(fn, d)] [(fn, sd)],
        c.id = d.id ∧
        ∀ (k : List Char) (v : Option JVal), ((k, v) ∈ c.changes ↔
          (k ∈ importantKeys ∧ v = pyGet d.fields k ∧
            pyGet d.fields k ≠ pyGet sd.fields k))) ∧
      (detect_changes [(fn, d)] [(fn, sd)] = [] ↔
        ∀ k ∈ importantKeys, pyGet d.fields k = pyGet sd.fields k)) ∧
    detect_changes
      [("10.json".data, ⟨10, [("System.Title".data, JVal.s "A".data),
          ("System.State".data, JVal.s "New".data)]⟩)]
      [("10.json".data, ⟨10, [("System.Title".data, JVal.s "A".data),
          ("System.State".data, JVal.s "Done".data)]⟩)]
      = [⟨10, [("System.State".data, some (JVal.s "New".data))]⟩] := by
  refine ⟨?_, by decide⟩
  intro fn d sd hjson
  constructor
  · intro c hc
    rw [detect_changes_pair fn d sd hjson] at hc
    by_cases hfc : fieldChanges (get_important_fields d) (get_important_fields sd) = []
    · rw [if_pos hfc] at hc
      simp at hc
    · rw [if_neg hfc] at hc
      rcases List.mem_cons.mp hc with h1 | h1
      · subst h1
        exact ⟨rfl, fun k v => fieldChanges_mem⟩
      · simp at h1
  · rw [detect_changes_pair fn d sd hjson]
    constructor
    · intro h
      by_cases hfc : fieldChanges (get_important_fields d) (get_important_fields sd) = []
      · exact fieldChanges_nil_iff.mp hfc
      · rw [if_neg hfc] at h
        cases h
    · intro h
      rw [if_pos (fieldChanges_nil_iff.mpr h)]

/-- C5 witness: the amended theorem instantiated at a concrete pair of
equal records stored under one json file name, giving the empty change
list by the emptiness characterization. -/
theorem C5_witness :
    detect_changes
      [("10.json".data, (⟨10, [("System.Title".data, JVal.s "A".data),
          ("System.State".data, JVal.s "New".data)]⟩ : WIData))]
      [("10.json".data, (⟨10, [("System.Title".data, JVal.s "A".data),
          ("System.State".data, JVal.s "New".data)]⟩ : WIData))]
      = [] :=
  ((C5_changes_are_current_values.1 "10.json".data
      ⟨10, [("System.Title".data, JVal.s "A".data),
        ("System.State".data, JVal.s "New".data)]⟩
      ⟨10, [("System.Title".data, JVal.s "A".data),
        ("System.State".data, JVal.s "New".data)]⟩
      (by decide)).2).mpr (fun k _ => rfl)

/-- C9 counterexample: the Change Detector pairs records by file name,
not by identifier.  Two record sets with the same single identifier 10
and deeply equal tracked fields, stored under the different file names
produced when the untracked work-item type changed, yield one spurious
wholly-new ChangeRecord instead of zero. -/
theorem C9_cex_pairing_is_by_filename :
    detect_changes
      [("Task_10_A.json".data, ⟨10, [("System.Title".data, JVal.s "A".data),
          ("System.State".data, JVal.s "Done".data)]⟩)]
      [("Feature_10_A.json".data, ⟨10, [("System.Title".data, JVal.s "A".data),
          ("System.State".data, JVal.s "Done".data)]⟩)]
      = [⟨10, get_important_fields ⟨10, [("System.Title".data, JVal.s "A".data),
          ("System.State".data, JVal.s "Done".data)]⟩⟩] ∧
    detect_changes
      [("Task_10_A.json".data, ⟨10, [("System.Title".data, JVal.s "A".data),
          ("System.State".data, JVal.s "Done".data)]⟩)]
      [("Feature_10_A.json".data, ⟨10, [("System.Title".data, JVal.s "A".data),
          ("System.State".data, JVal.s "Done".data)]⟩)]
      ≠ [] :=
  ⟨by decide, by decide⟩

/-- C9 (amended): when every current file has a snapshot entry under the
same file name whose tracked fields are deeply equal, the Change Detector
emits zero ChangeRecords.  Pairing is by file name (which also encodes
the untracked work-item type), not by identifier. -/
theorem C9_no_changes_when_filenames_match
    {current snapshot : List (List Char × WIData)}
    (h : ∀ fd ∈ current, ∃ sd, snapshot.find? (fun s => s.1 == fd.1) = some sd ∧
      get_important_fields sd.2 = get_important_fields fd.2) :
    detect_changes current snapshot = [] := by
  unfold detect_changes
  rw [List.filterMap_eq_nil_iff]
  intro fd hfd
  by_cases hjson : pyEndsWith ".json".data fd.1
  · rcases h fd hfd with ⟨sd, hfind, hequal⟩
    rw [if_pos hjson, hfind]
    have hfc : fieldChanges (get_important_fields fd.2) (get_important_fields sd.2) = [] := by
      rw [hequal]
      exact fieldChanges_nil_iff.mpr (fun k _ => rfl)
    simp [hfc]
  · rw [if_neg hjson]

/-- C9 witness: the amended theorem applied to equal current and snapshot
directories with two files. -/
theorem C9_witness :
    detect_changes
      [("Task_10_A.json".data, (⟨10, [("System.State".data, JVal.s "Done".data)]⟩ : WIData)),
       ("Feature_11_B.json".data, (⟨11, [("System.Title".data, JVal.s "B".data)]⟩ : WIData))]
      [("Task_10_A.json".data, (⟨10, [("System.State".data, JVal.s "Done".data)]⟩ : WIData)),
       ("Feature_11_B.json".data, (⟨11, [("System.Title".data, JVal.s "B".data)]⟩ : WIData))]
      = [] :=
  @C9_no_changes_when_filenames_match
    [("Task_10_A.json".data, (⟨10, [("System.State".data, JVal.s "Done".data)]⟩ : WIData)),
     ("Feature_11_B.json".data, (⟨11, [("System.Title".data, JVal.s "B".data)]⟩ : WIData))]
    [("Task_10_A.json".data, (⟨10, [("System.State".data, JVal.s "Done".data)]⟩ : WIData)),
     ("Feature_11_B.json".data, (⟨11, [("System.Title".data, JVal.s "B".data)]⟩ : WIData))]
    (by decide)

set_option maxRecDepth 10000 in
/-- C7 counterexample: rendering the work item of the claim at depth 1
does not produce the continuation-indented block of the claim.  clean_html
runs on the acceptance criteria before scenario splitting and joins the
in-paragraph line break of the first scenario with a space, so the block
Given X, newline, continuation-indented When Y never appears. -/
theorem C7_cex_continuation_lines_collapsed :
    format_work_item
        [⟨7, "Task".data, "T".data, [], "Given X\nWhen Y\n\nThen Z".data, none, []⟩] 2
        ⟨7, "Task".data, "T".data, [], "Given X\nWhen Y\n\nThen Z".data, none, []⟩ 1
      = some "  ## T\n  *Task #7*\n\n  **Acceptance Criteria:**\n  - Given X When Y\n  - Then Z\n".data ∧
    ¬ ("  - Given X\n    When Y".data <:+:
        "  ## T\n  *Task #7*\n\n  **Acceptance Criteria:**\n  - Given X When Y\n  - Then Z\n".data) :=
  ⟨by decide, by decide⟩

set_option maxRecDepth 10000 in
/-- C7 (amended): for the work item of the claim rendered at depth 1, the
acceptance-criteria section consists of the two single-line bullet blocks
with texts Given X When Y and Then Z: clean_html first normalizes the
criteria to one line per scenario (in-paragraph line breaks become
spaces), so every scenario block renders as one bullet line and the
continuation-indent branch of format_work_item receives no lines. -/
theorem C7_acceptance_criteria_single_line_bullets :
    clean_html "Given X\nWhen Y\n\nThen Z".data = some "Given X When Y\n\nThen Z".data ∧
    acBlocks "  ".data "Given X When Y\n\nThen Z".data
      = ["  - Given X When Y".data, "  - Then Z".data] ∧
    format_work_item
        [⟨7, "Task".data, "T".data, [], "Given X\nWhen Y\n\nThen Z".data, none, []⟩] 2
        ⟨7, "Task".data, "T".data, [], "Given X\nWhen Y\n\nThen Z".data, none, []⟩ 1
      = some "  ## T\n  *Task #7*\n\n  **Acceptance Criteria:**\n  - Given X When Y\n  - Then Z\n".data :=
  ⟨by decide, by decide, by decide⟩

theorem filterMap_all_some {α β : Type} {f : α → Option β} {g : α → β} :
    ∀ {L : List α}, (∀ a ∈ L, f a = some (g a)) → L.filterMap f = L.map g := by
  intro L
  induction L with
  | nil => intro _; rfl
  | cons a t ih =>
    intro h
    rw [List.filterMap_cons, h a (by simp), List.map_cons,
      ih (fun x hx => h x (List.mem_cons_of_mem _ hx))]

theorem splitNN_single_join :
    ∀ {L : List (List Char)}, (∀ l ∈ L, l ≠ [] ∧ '\n' ∉ l) →
      splitNN (joinSep ['\n'] L) = [joinSep ['\n'] L] := by
  intro L
  induction L with
  | nil => intro _; rfl
  | cons l L' ih =>
    intro h
    have hl := h l (by simp)
    cases L' with
    | nil => exact splitNN_no_lf hl.2
    | cons m L'' =>
      have hm := h m (by simp)
      have hrest : ∀ x ∈ m :: L'', x ≠ [] ∧ '\n' ∉ x :=
        fun x hx => h x (List.mem_cons_of_mem _ hx)
      have hihr := ih hrest
      have hJne : joinSep ['\n'] (m :: L'') ≠ [] := joinSep_ne_nil hm.1
      have hheadJ : ∀ c, (joinSep ['\n'] (m :: L'')).head? = some c → c ≠ '\n' := by
        intro c hc
        rw [joinSep_head? L'' hm.1] at hc
        intro he
        subst he
        exact hm.2 (List.mem_of_mem_head? hc)
      rw [joinSep_cons_cons, List.append_assoc]
      show splitNN (l ++ ('\n' :: joinSep ['\n'] (m :: L''))) = _
      rcases splitNN_prepend l ('\n' :: joinSep ['\n'] (m :: L'')) hl.2
        with ⟨hd, tl, hs, hsp⟩
      have hne2 : (joinSep ['\n'] (m :: L'')).head? ≠ some '\n' := by
        intro he
        exact hheadJ '\n' he rfl
      have hlf : splitNN ('\n' :: joinSep ['\n'] (m :: L''))
          = [('\n' :: joinSep ['\n'] (m :: L''))] := by
        have hcons := @splitNN_cons '\n' (joinSep ['\n'] (m :: L'')) (Or.inr hne2)
        rw [hcons, hihr]
      rw [hlf, List.cons.injEq] at hs
      rw [hsp, ← hs.1, ← hs.2]
      rfl

theorem mem_headingText {t : List Char} {c : Char} (h : c ∈ headingText t) : c ∈ t := by
  unfold headingText at h
  have h1 := (List.dropWhile_sublist isPySpace).mem h
  exact (List.drop_sublist _ _).mem h1

theorem cmhLine_props {t : List Char} (ht : t ≠ [])
    (hnoLB : ∀ c ∈ t, isLB c = false) (hfix : pyStrip t = t) :
    cmhLine t ≠ [] ∧ (∀ c ∈ cmhLine t, isLB c = false) ∧ pyStrip (cmhLine t) = cmhLine t := by
  unfold cmhLine
  by_cases hh : isHeading t
  · rw [if_pos hh]
    refine ⟨by simp, ?_, ?_⟩
    · intro c hc
      rw [List.append_assoc, List.mem_append] at hc
      rcases hc with hc | hc
      · fin_cases hc <;> decide
      · rw [List.mem_append] at hc
        rcases hc with hc | hc
        · exact hnoLB c (mem_headingText hc)
        · fin_cases hc <;> decide
    · apply pyStrip_eq_self_of
      · intro c hc
        rw [List.append_assoc, List.head?_append_of_ne_nil _ (by decide)] at hc
        have hc2 : some '*' = some c := hc
        rw [Option.some.injEq] at hc2
        rw [← hc2]
        decide
      · intro c hc
        rw [List.getLast?_append] at hc
        have hc2 : some '*' = some c := hc
        rw [Option.some.injEq] at hc2
        rw [← hc2]
        decide
  · rw [if_neg hh]
    have hid : (if t = "---".data then t
        else if startsWithL "- ".data t = true then t else t) = t := by
      split
      · rfl
      · split <;> rfl
    rw [hid]
    exact ⟨ht, hnoLB, hfix⟩

theorem cmh_eq {s : List Char} (hs : s ≠ []) :
    clean_markdown_headers s = joinSep ['\n']
      ((pySplitlines s).filterMap fun l =>
        if pyStrip l = [] then none else some (cmhLine (pyStrip l))) := by
  unfold clean_markdown_headers
  rw [if_neg hs]

theorem cmh_members {s m : List Char}
    (hm : m ∈ (pySplitlines s).filterMap fun l =>
        if pyStrip l = [] then none else some (cmhLine (pyStrip l))) :
    m ≠ [] ∧ (∀ c ∈ m, isLB c = false) ∧ pyStrip m = m := by
  rw [List.mem_filterMap] at hm
  rcases hm with ⟨l, hl, hout⟩
  by_cases ht : pyStrip l = []
  · rw [if_pos ht] at hout; cases hout
  · rw [if_neg ht, Option.some.injEq] at hout
    subst hout
    exact cmhLine_props ht
      (fun c hc => pySplitlines_segments_noLB hl c (mem_pyStrip hc))
      (pyStrip_idem l)

theorem join_struct {L : List (List Char)} (hLne : L ≠ [])
    (hmem : ∀ m ∈ L, m ≠ [] ∧ (∀ c ∈ m, isLB c = false) ∧ pyStrip m = m) :
    pyStrip (joinSep ['\n'] L) = joinSep ['\n'] L ∧
    splitNN (joinSep ['\n'] L) = [joinSep ['\n'] L] ∧
    pySplitlines (joinSep ['\n'] L) = L := by
  refine ⟨?_, ?_, ?_⟩
  · rcases L with _ | ⟨L0, Ltl⟩
    · exact absurd rfl hLne
    · apply pyStrip_eq_self_of
      · intro c hc
        rw [joinSep_head? Ltl (hmem L0 (by simp)).1] at hc
        exact pyStrip_head_not (by rw [(hmem L0 (by simp)).2.2]; exact hc)
      · intro c hc
        rcases joinSep_getLast? (by simp : L0 :: Ltl ≠ [])
            (fun m hm => (hmem m hm).1) with ⟨w, hw, hlast⟩
        rw [hlast] at hc
        exact pyStrip_getLast_not (by rw [(hmem w hw).2.2]; exact hc)
  · exact splitNN_single_join (fun l hl =>
      ⟨(hmem l hl).1,
       fun hmem2 => absurd ((hmem l hl).2.1 '\n' hmem2) (by decide)⟩)
  · exact pySplitlines_joinSep hLne (fun m hm => ⟨(hmem m hm).1, (hmem m hm).2.1⟩)

/-- C10: the heading normalizer emits no blank lines, so splitting its
output on blank-line boundaries always yields exactly one paragraph, and
format_section_content therefore styles an entire non-empty content block
uniformly by its first line: when the normalized block starts with a
bullet marker every line is emitted indent-prefixed unchanged, and
otherwise every line is emitted as an indented blockquote line; mixed
bullet-then-prose content is never split into separately styled
paragraphs. -/
theorem C10_single_paragraph_uniform_style (s indent : List Char) :
    (∀ l ∈ pySplitlines (clean_markdown_headers s), l ≠ []) ∧
    splitNN (clean_markdown_headers s) = [clean_markdown_headers s] ∧
    format_section_content s indent =
      (if clean_markdown_headers s = [] then []
       else if (startsWithL "- ".data (clean_markdown_headers s)
           || startsWithL "* ".data (clean_markdown_headers s)) = true then
         (pySplitlines (clean_markdown_headers s)).map (fun l => indent ++ l) ++ [[]]
       else
         (pySplitlines (clean_markdown_headers s)).map
           (fun l => indent ++ "> ".data ++ l) ++ [[]]) := by
  by_cases hc : clean_markdown_headers s = []
  · refine ⟨?_, ?_, ?_⟩
    · intro l hl
      rw [hc] at hl
      simp [pySplitlines] at hl
    · rw [hc]; rfl
    · rw [if_pos hc]
      by_cases hs : s = []
      · rw [hs]; rfl
      · unfold format_section_content
        rw [if_neg hs, hc]
        rfl
  · have hs : s ≠ [] := by
      intro he
      rw [he] at hc
      exact hc rfl
    have hJ := cmh_eq hs
    have hmem : ∀ m ∈ ((pySplitlines s).filterMap fun l =>
        if pyStrip l = [] then none else some (cmhLine (pyStrip l))),
        m ≠ [] ∧ (∀ c ∈ m, isLB c = false) ∧ pyStrip m = m :=
      fun m hm => cmh_members hm
    have hLne : ((pySplitlines s).filterMap fun l =>
        if pyStrip l = [] then none else some (cmhLine (pyStrip l))) ≠ [] := by
      intro he
      rw [hJ, he] at hc
      exact hc rfl
    have hstruct := join_struct hLne hmem
    rw [← hJ] at hstruct
    refine ⟨?_, hstruct.2.1, ?_⟩
    · intro l hl
      rw [hstruct.2.2] at hl
      exact (hmem l hl).1
    · unfold format_section_content
      rw [if_neg hs, hstruct.2.1]
      rw [List.map_cons, List.map_nil, List.flatten_cons, List.flatten_nil,
        List.append_nil]
      unfold fscPara
      rw [hstruct.1, if_neg hc, if_neg hc]
      by_cases hb : (startsWithL "- ".data (clean_markdown_headers s)
          || startsWithL "* ".data (clean_markdown_headers s)) = true
      · rw [if_pos hb, if_pos hb]
      · rw [if_neg hb, if_neg hb]
        have hpt : ∀ l ∈ pySplitlines (clean_markdown_headers s),
            (fun l0 => if pyStrip l0 = [] then none
              else some (indent ++ "> ".data ++ pyStrip l0)) l
            = some ((fun l0 => indent ++ "> ".data ++ l0) l) := by
          intro l hl
          rw [hstruct.2.2] at hl
          have hfix := (hmem l hl).2.2
          show (if pyStrip l = [] then none
            else some (indent ++ "> ".data ++ pyStrip l))
            = some (indent ++ "> ".data ++ l)
          rw [hfix, if_neg (hmem l hl).1]
        rw [filterMap_all_some hpt]

/-- C2 witness: the root-stability conjunct of the amended theorem
instantiated at a concrete singleton mapping. -/
theorem C2_witness :
    (build_hierarchy (build_hierarchy
        [⟨3, "Task".data, "W".data, [], [], none, []⟩]).1).2
      = (build_hierarchy [⟨3, "Task".data, "W".data, [], [], none, []⟩]).2 :=
  C2_roots_stable_children_extended.1 [⟨3, "Task".data, "W".data, [], [], none, []⟩]

/-- C10 witness: the uniform-style theorem instantiated at a mixed
bullet-then-prose block, which stays one paragraph and is styled entirely
by its bullet first line. -/
theorem C10_witness :
    format_section_content "- a\nprose line".data "  ".data
      = ["  - a".data, "  prose line".data, []] := by
  have h := (C10_single_paragraph_uniform_style "- a\nprose line".data "  ".data).2.2
  rw [h]
  decide
